import Mathlib

/-!
Shallow embedding of the dotdottui task-tree mutation and history engine
(`internal/tui/operations.go` and the model state in `internal/tui/model.go`),
together with proofs of the specification's claims about it.

Tasks form a finite forest; the model carries the forest, a cursor id, a
previous id, and two bounded snapshot stacks for undo/redo.  Go's in-place
pointer mutations are rendered as functional updates located by paths
(lists of child indices) into the forest.
-/

namespace DotDot

/-- `TaskStatus` — the tri-state status enum (`model.go`). -/
inductive TaskStatus : Type where
  | Todo : TaskStatus
  | Active : TaskStatus
  | Done : TaskStatus
deriving DecidableEq, Repr

/-- `Task` — id, title, status, ordered subtasks (`model.go`). -/
inductive Task : Type where
  | mk : String → String → TaskStatus → List Task → Task

def Task.id : Task → String
  | .mk i _ _ _ => i

def Task.title : Task → String
  | .mk _ t _ _ => t

def Task.status : Task → TaskStatus
  | .mk _ _ s _ => s

def Task.subtasks : Task → List Task
  | .mk _ _ _ c => c

/-- Replace a task's subtasks (models in-place mutation of the `subtasks` field). -/
def Task.withSubtasks : Task → List Task → Task
  | .mk i t s _, c => .mk i t s c

/-- Replace a task's status (models in-place mutation of the `status` field). -/
def Task.withStatus : Task → TaskStatus → Task
  | .mk i t _ c, s => .mk i t s c

/-- Replace a task's title (models in-place mutation of the `title` field). -/
def Task.withTitle : Task → String → Task
  | .mk i _ s c, t => .mk i t s c

/-- `NewTask` specialised to no initial subtasks, with the freshly generated
uuid passed explicitly (uuid generation is external nondeterminism). -/
def NewTask (id title : String) (status : TaskStatus) : Task :=
  .mk id title status []

mutual
/-- All tasks of a subtree in pre-order: the node itself, then its subtasks
(the visit order of `traverseTasks`). -/
def flattenTask : Task → List Task
  | .mk i t s sub => .mk i t s sub :: flattenForest sub

/-- All tasks of a forest in pre-order (the visit order of `traverseTasks`). -/
def flattenForest : List Task → List Task
  | [] => []
  | t :: ts => flattenTask t ++ flattenForest ts
end

mutual
/-- Ids collected over a subtree in `traverseTasks` order. -/
def taskIdList : Task → List String
  | .mk i _ _ sub => i :: forestIdList sub

/-- Ids collected over a forest in `traverseTasks` order: `getAllTaskIDs`. -/
def forestIdList : List Task → List String
  | [] => []
  | t :: ts => taskIdList t ++ forestIdList ts
end

mutual
/-- `findTaskByID` restricted to one subtree: first pre-order match. -/
def findTask (tid : String) : Task → Option Task
  | .mk i t s sub =>
    if i = tid then some (.mk i t s sub) else findForest tid sub

/-- `findTaskByID` over a forest: first pre-order match or `none`. -/
def findForest (tid : String) : List Task → Option Task
  | [] => none
  | t :: ts =>
    match findTask tid t with
    | some r => some r
    | none => findForest tid ts
end

/-- Index of the first task with the given id in a slice (the linear scans in
`findParentTask`). -/
def childIdx (tid : String) : List Task → Option Nat
  | [] => none
  | t :: ts => if t.id = tid then some 0 else (childIdx tid ts).map (· + 1)

/-- Shift the head index of a path by one (used to re-base a search result
from the tail of the list onto the whole list). -/
def shiftHead : List Nat → List Nat
  | [] => []
  | i :: p => (i + 1) :: p

/-- The recursive `search` helper of `findParentTask`: for each task in order it
first scans that task's direct subtasks for the id, then recurses into the
subtasks.  Returns the parent's path within the forest and the child index. -/
def searchParent (tid : String) : List Task → Option (List Nat × Nat)
  | [] => none
  | .mk _ _ _ sub :: ts =>
    match childIdx tid sub with
    | some j => some ([0], j)
    | none =>
      match searchParent tid sub with
      | some (p, j) => some (0 :: p, j)
      | none =>
        match searchParent tid ts with
        | some (p, j) => some (shiftHead p, j)
        | none => none

/-- `findParentTask`: first checks for a top-level task (parent `none`), then
runs the recursive search.  `none` models Go's `(nil, -1)` "not found";
`some (none, i)` models a root-level task; `some (some p, j)` a task that is
the `j`-th subtask of the parent located at path `p`. -/
def findParent (ts : List Task) (tid : String) : Option (Option (List Nat) × Nat) :=
  match childIdx tid ts with
  | some i => some (none, i)
  | none =>
    match searchParent tid ts with
    | some (p, j) => some (some p, j)
    | none => none

/-- Task located at a path of child indices (first index into the forest,
subsequent indices into successive `subtasks`). -/
def taskAt (p : List Nat) (ts : List Task) : Option Task :=
  match p with
  | [] => none
  | i :: p' =>
    match ts[i]? with
    | none => none
    | some t =>
      match p' with
      | [] => some t
      | _ => taskAt p' t.subtasks

/-- Apply a function to the element at an index, if present. -/
def modifyIdx : List Task → Nat → (Task → Task) → List Task
  | [], _, _ => []
  | t :: ts, 0, f => f t :: ts
  | t :: ts, n + 1, f => t :: modifyIdx ts n f

/-- Apply a function to the task at a path, if present. -/
def modifyAt (p : List Nat) (f : Task → Task) (ts : List Task) : List Task :=
  match p with
  | [] => ts
  | i :: p' =>
    modifyIdx ts i (fun t =>
      match p' with
      | [] => f t
      | _ => t.withSubtasks (modifyAt p' f t.subtasks))

/-- `getTaskContainer`: the slice a parent owns — the root list for parent
`none`, the parent's `subtasks` otherwise. -/
def containerAt (ts : List Task) : Option (List Nat) → Option (List Task)
  | none => some ts
  | some p => (taskAt p ts).map Task.subtasks

/-- Rewrite the container designated by a parent reference. -/
def containerModify (ts : List Task) (c : Option (List Nat))
    (f : List Task → List Task) : List Task :=
  match c with
  | none => f ts
  | some p => modifyAt p (fun t => t.withSubtasks (f t.subtasks)) ts

/-- `removeTaskFromSlice` (shift-left removal at an index). -/
def removeTaskFromSlice : List Task → Nat → List Task
  | [], _ => []
  | _ :: ts, 0 => ts
  | t :: ts, n + 1 => t :: removeTaskFromSlice ts n

/-- `insertTaskInSlice` (shift-right insertion at an index). -/
def insertTaskInSlice : List Task → Nat → Task → List Task
  | l, 0, x => x :: l
  | [], _ + 1, _ => []
  | t :: ts, n + 1, x => t :: insertTaskInSlice ts n x

/-- The swap `(*container)[i], (*container)[i-1] = (*container)[i-1], (*container)[i]`. -/
def swapWithPrev (l : List Task) (i : Nat) : List Task :=
  match l[i]?, l[i - 1]? with
  | some a, some b => (l.set i b).set (i - 1) a
  | _, _ => l

/-- `ModelSnapshot` — deep copy of forest, cursor id and previous id
(deep copying is the identity on immutable Lean values). -/
structure ModelSnapshot : Type where
  tasks : List Task
  cursorID : String
  previousID : String

/-- The model state relevant to the tree/history engine (`model.go`). -/
structure Model : Type where
  tasks : List Task
  cursorID : String
  previousID : String
  undoStack : List ModelSnapshot
  redoStack : List ModelSnapshot
  maxHistorySize : Nat

/-- The snapshot `takeSnapshot` and `undo`/`redo` capture of the live state. -/
def currentSnapshot (m : Model) : ModelSnapshot :=
  ⟨m.tasks, m.cursorID, m.previousID⟩

/-- `takeSnapshot`: push the current snapshot on the undo stack, evict the
oldest entry when the cap is exceeded, clear the redo stack. -/
def takeSnapshot (m : Model) : Model :=
  let undo1 := m.undoStack ++ [currentSnapshot m]
  { m with
    undoStack := if m.maxHistorySize < undo1.length then undo1.tail else undo1
    redoStack := [] }

/-- `getCurrentTask`. -/
def getCurrentTask (m : Model) : Option Task :=
  findForest m.cursorID m.tasks

/-- `getAllTaskIDs`. -/
def getAllTaskIDs (m : Model) : List String :=
  forestIdList m.tasks

mutual
/-- `modifyTaskByID` on one subtree: `some` with the rewritten subtree when the
id was found (traversal stops at the first match), `none` otherwise. -/
def modifyTaskT (tid : String) (f : Task → Task) : Task → Option Task
  | .mk i t s sub =>
    if i = tid then some (f (.mk i t s sub))
    else
      match modifyTaskL tid f sub with
      | some sub' => some (.mk i t s sub')
      | none => none

/-- `modifyTaskByID` on a forest: rewrite the first pre-order task with the id. -/
def modifyTaskL (tid : String) (f : Task → Task) : List Task → Option (List Task)
  | [] => none
  | t :: ts =>
    match modifyTaskT tid f t with
    | some t' => some (t' :: ts)
    | none => (modifyTaskL tid f ts).map (t :: ·)
end

/-- `modifyTaskByID` at the model level. -/
def modifyTaskByID (m : Model) (tid : String) (f : Task → Task) : Model :=
  { m with tasks := (modifyTaskL tid f m.tasks).getD m.tasks }

/-- The `forward` switch of `changeTaskStatus` (Todo → Active → Done). -/
def statusForward : TaskStatus → TaskStatus
  | .Todo => .Active
  | .Active => .Done
  | .Done => .Done

/-- The `backward` switch of `changeTaskStatus` (Done → Active → Todo). -/
def statusBackward : TaskStatus → TaskStatus
  | .Done => .Active
  | .Active => .Todo
  | .Todo => .Todo

/-- `changeTaskStatus`: snapshot only when the status will actually change,
then rewrite the current task's status in the given direction. -/
def changeTaskStatus (m : Model) (direction : Int) : Model :=
  match getCurrentTask m with
  | none => m
  | some currentTask =>
    let willChange :=
      if 0 < direction then
        currentTask.status = .Todo ∨ currentTask.status = .Active
      else
        currentTask.status = .Done ∨ currentTask.status = .Active
    let m1 := if willChange then takeSnapshot m else m
    modifyTaskByID m1 m.cursorID (fun task =>
      if 0 < direction then task.withStatus (statusForward task.status)
      else task.withStatus (statusBackward task.status))

/-- `moveTaskUp`: swap the current task with its previous sibling; no-op when
the task is unknown or first in its container. -/
def moveTaskUp (m : Model) : Model :=
  match findParent m.tasks m.cursorID with
  | none => m
  | some (c, index) =>
    if index = 0 then m
    else
      let m1 := takeSnapshot m
      { m1 with tasks := containerModify m1.tasks c (fun l => swapWithPrev l index) }

/-- `moveTaskDown`: swap the current task with its next sibling; no-op when
the task is unknown or last in its container. -/
def moveTaskDown (m : Model) : Model :=
  match findParent m.tasks m.cursorID with
  | none => m
  | some (c, index) =>
    match containerAt m.tasks c with
    | none => m
    | some cont =>
      if cont.length - 1 ≤ index then m
      else
        let m1 := takeSnapshot m
        { m1 with tasks := containerModify m1.tasks c (fun l => swapWithPrev l (index + 1)) }

/-- `indentTask`: remove the current task from its container and append it to
the previous sibling's subtasks; no-op when unknown or first. -/
def indentTask (m : Model) : Model :=
  match findParent m.tasks m.cursorID with
  | none => m
  | some (c, index) =>
    if index = 0 then m
    else
      let m1 := takeSnapshot m
      let step := fun (l : List Task) =>
        match l[index]? with
        | none => l
        | some task =>
          modifyIdx (removeTaskFromSlice l index) (index - 1)
            (fun prev => prev.withSubtasks (prev.subtasks ++ [task]))
      { m1 with tasks := containerModify m1.tasks c step }

/-- `unindentTask`: remove the current task from its parent's subtasks and
re-insert it just after that parent, in the parent's own container (located
by a second `findParentTask` on the already-mutated forest); no-op for
root-level or unknown tasks. -/
def unindentTask (m : Model) : Model :=
  match findParent m.tasks m.cursorID with
  | none => m
  | some (none, _) => m
  | some (some p, index) =>
    let m1 := takeSnapshot m
    match taskAt p m1.tasks with
    | none => m1
    | some parent =>
      match parent.subtasks[index]? with
      | none => m1
      | some task =>
        let ts1 := modifyAt p
          (fun t => t.withSubtasks (removeTaskFromSlice t.subtasks index)) m1.tasks
        match findParent ts1 parent.id with
        | none => { m1 with tasks := insertTaskInSlice ts1 0 task }
        | some (g, parentIndex) =>
          { m1 with
            tasks := containerModify ts1 g
              (fun l => insertTaskInSlice l (parentIndex + 1) task) }

/-- `updateCursorAfterDeletion`: prefer the previous id when it still resolves,
otherwise the first id in pre-order, otherwise empty; always clear the
previous id. -/
def updateCursorAfterDeletion (m : Model) : Model :=
  if m.previousID ≠ "" ∧ (findForest m.previousID m.tasks).isSome then
    { m with cursorID := m.previousID, previousID := "" }
  else
    { m with cursorID := (forestIdList m.tasks).headD "", previousID := "" }

/-- `deleteCurrentTask`: remove the current task (with its subtree) from its
container, then re-point the cursor; no-op when the cursor does not resolve. -/
def deleteCurrentTask (m : Model) : Model :=
  match findParent m.tasks m.cursorID with
  | none => m
  | some (c, index) =>
    let m1 := takeSnapshot m
    updateCursorAfterDeletion
      { m1 with tasks := containerModify m1.tasks c (fun l => removeTaskFromSlice l index) }

/-- `createTask`: snapshot, build an empty Todo task carrying the externally
generated uuid, and place it (sibling mode inserts after the current task in
its container; subtask mode appends to the current task's subtasks; both fall
back to appending at root level).  Returns the updated model and the new id. -/
def createTask (m : Model) (asSubtask : Bool) (newId : String) : Model × String :=
  let m1 := takeSnapshot m
  let newTask := NewTask newId "" .Todo
  if m1.tasks.length = 0 ∨ m1.cursorID = "" then
    ({ m1 with tasks := m1.tasks ++ [newTask] }, newId)
  else if asSubtask then
    match getCurrentTask m1 with
    | none => ({ m1 with tasks := m1.tasks ++ [newTask] }, newId)
    | some _ =>
      (modifyTaskByID m1 m1.cursorID
        (fun t => t.withSubtasks (t.subtasks ++ [newTask])), newId)
  else
    match findParent m1.tasks m1.cursorID with
    | none => ({ m1 with tasks := m1.tasks ++ [newTask] }, newId)
    | some (c, index) =>
      ({ m1 with
        tasks := containerModify m1.tasks c
          (fun l => insertTaskInSlice l (index + 1) newTask) }, newId)

/-- `createNewTaskBelow`. -/
def createNewTaskBelow (m : Model) (newId : String) : Model × String :=
  createTask m false newId

/-- `createNewSubtask`. -/
def createNewSubtask (m : Model) (newId : String) : Model × String :=
  createTask m true newId

/-- `createNewTaskInParent`: snapshot, then insert an empty Todo task after the
current task's parent in the grandparent's container, with root-level
fallbacks mirroring the source branches. -/
def createNewTaskInParent (m : Model) (newId : String) : Model × String :=
  let m1 := takeSnapshot m
  let newTask := NewTask newId "" .Todo
  if m1.tasks.length = 0 ∨ m1.cursorID = "" then
    ({ m1 with tasks := m1.tasks ++ [newTask] }, newId)
  else
    match findParent m1.tasks m1.cursorID with
    | none => ({ m1 with tasks := m1.tasks ++ [newTask] }, newId)
    | some (none, _) => ({ m1 with tasks := m1.tasks ++ [newTask] }, newId)
    | some (some p, _) =>
      match taskAt p m1.tasks with
      | none => ({ m1 with tasks := m1.tasks ++ [newTask] }, newId)
      | some parent =>
        match findParent m1.tasks parent.id with
        | none => ({ m1 with tasks := m1.tasks ++ [newTask] }, newId)
        | some (g, parentIndex) =>
          ({ m1 with
            tasks := containerModify m1.tasks g
              (fun l => insertTaskInSlice l (parentIndex + 1) newTask) }, newId)

/-- `editTaskTitle`: snapshot only when the title actually changes, then write
the new title onto the task. -/
def editTaskTitle (m : Model) (taskID newTitle : String) : Model :=
  let m1 :=
    match findForest taskID m.tasks with
    | some currentTask => if currentTask.title ≠ newTitle then takeSnapshot m else m
    | none => m
  modifyTaskByID m1 taskID (fun t => t.withTitle newTitle)

/-- `undo`: push the current snapshot on the redo stack (capped), pop the undo
stack and restore forest, cursor and previous id from it. -/
def undo (m : Model) : Model :=
  match m.undoStack.getLast? with
  | none => m
  | some snapshot =>
    let redo1 := m.redoStack ++ [currentSnapshot m]
    { m with
      tasks := snapshot.tasks
      cursorID := snapshot.cursorID
      previousID := snapshot.previousID
      undoStack := m.undoStack.dropLast
      redoStack := if m.maxHistorySize < redo1.length then redo1.tail else redo1 }

/-- `redo`: push the current snapshot on the undo stack (capped), pop the redo
stack and restore forest, cursor and previous id from it. -/
def redo (m : Model) : Model :=
  match m.redoStack.getLast? with
  | none => m
  | some snapshot =>
    let undo1 := m.undoStack ++ [currentSnapshot m]
    { m with
      tasks := snapshot.tasks
      cursorID := snapshot.cursorID
      previousID := snapshot.previousID
      undoStack := if m.maxHistorySize < undo1.length then undo1.tail else undo1
      redoStack := m.redoStack.dropLast }

/-- `getAdjacentTaskID`: the neighbouring id in pre-order, or the current id at
a boundary (or when the cursor is unknown). -/
def getAdjacentTaskID (m : Model) (direction : Int) : String :=
  let ids := forestIdList m.tasks
  match childIdxStr m.cursorID ids with
  | some i =>
    let newIndex : Int := (i : Int) + direction
    if 0 ≤ newIndex ∧ newIndex < ids.length then
      (ids.get? newIndex.toNat).getD m.cursorID
    else m.cursorID
  | none => m.cursorID
where
  /-- Index of the first occurrence of a string in a list. -/
  childIdxStr (s : String) : List String → Option Nat
    | [] => none
    | x :: xs => if x = s then some 0 else (childIdxStr s xs).map (· + 1)

/-- `NewModelWithFile`, restricted to the engine state: initial forest as
loaded (or empty), cursor on the first root task or empty, empty history
stacks, history cap 50. -/
def initModel (tasks : List Task) : Model :=
  { tasks := tasks
    cursorID := ((tasks.head?).map Task.id).getD ""
    previousID := ""
    undoStack := []
    redoStack := []
    maxHistorySize := 50 }

/-- One normal-mode "new task" keystroke (`n`, `N`, `ctrl+n`): remember the
cursor as previous id, create the task, and move the cursor onto the new task
when an id was returned. -/
def newTaskKey (create : Model → String → Model × String) (m : Model)
    (newId : String) : Model :=
  let m1 := { m with previousID := m.cursorID }
  let r := create m1 newId
  if r.2 ≠ "" then { r.1 with cursorID := r.2 } else r.1

/-- A paste keystroke: create a sibling or subtask from clipboard text, title
it, and move the cursor onto it. -/
def pasteKey (asSubtask : Bool) (m : Model) (newId text : String) : Model :=
  let m1 := { m with previousID := m.cursorID }
  let r := if asSubtask then createNewSubtask m1 newId
           else createNewTaskBelow m1 newId
  if r.2 ≠ "" then { editTaskTitle r.1 r.2 text with cursorID := r.2 }
  else r.1

/-- Cancelling an edit (`esc`): delete the current task when its title is
still empty. -/
def cancelEditKey (m : Model) : Model :=
  match getCurrentTask m with
  | some t => if t.title = "" then deleteCurrentTask m else m
  | none => m

/-- A navigation keystroke (`j`/`k`): move the cursor to the adjacent id. -/
def navKey (m : Model) (direction : Int) : Model :=
  { m with cursorID := getAdjacentTaskID m direction }

/-- States reachable from an initial model through the engine's operations as
the key handlers invoke them. -/
inductive Reach : Model → Prop where
  | init (tasks : List Task) : Reach (initModel tasks)
  | nav (d : Int) {m : Model} : Reach m → Reach (navKey m d)
  | status (d : Int) {m : Model} : Reach m → Reach (changeTaskStatus m d)
  | moveUp {m : Model} : Reach m → Reach (moveTaskUp m)
  | moveDown {m : Model} : Reach m → Reach (moveTaskDown m)
  | unindent {m : Model} : Reach m → Reach (unindentTask m)
  | indent {m : Model} : Reach m → Reach (indentTask m)
  | newBelow (newId : String) {m : Model} :
      Reach m → Reach (newTaskKey createNewTaskBelow m newId)
  | newSubtask (newId : String) {m : Model} :
      Reach m → Reach (newTaskKey createNewSubtask m newId)
  | newInParent (newId : String) {m : Model} :
      Reach m → Reach (newTaskKey createNewTaskInParent m newId)
  | undoK {m : Model} : Reach m → Reach (undo m)
  | redoK {m : Model} : Reach m → Reach (redo m)
  | commitEdit (text : String) {m : Model} :
      Reach m → Reach (editTaskTitle m m.cursorID text)
  | cancelEdit {m : Model} : Reach m → Reach (cancelEditKey m)
  | paste (asSubtask : Bool) (newId text : String) {m : Model} :
      Reach m → Reach (pasteKey asSubtask m newId text)

/-- Both history stacks within the cap. -/
def Inv (m : Model) : Prop :=
  m.undoStack.length ≤ m.maxHistorySize ∧ m.redoStack.length ≤ m.maxHistorySize

/-- The stacks of an operation's result: either untouched, or one snapshot
pushed with the redo stack cleared. -/
def ShapeOK (m m' : Model) : Prop :=
  m'.maxHistorySize = m.maxHistorySize ∧
  ((m'.undoStack = m.undoStack ∧ m'.redoStack = m.redoStack) ∨
   (m'.undoStack = (takeSnapshot m).undoStack ∧ m'.redoStack = []))

mutual
/-- Number of tasks in a subtree. -/
def sizeT : Task → Nat
  | .mk _ _ _ sub => 1 + sizeF sub

/-- Number of tasks in a forest. -/
def sizeF : List Task → Nat
  | [] => 0
  | t :: ts => sizeT t + sizeF ts
end

/-- Position of the task at a path within the pre-order id sequence. -/
def preIdx : List Nat → List Task → Nat
  | [], _ => 0
  | [i], ts => sizeF (ts.take i)
  | i :: p', ts =>
    sizeF (ts.take i) +
      match ts[i]? with
      | none => 0
      | some t => 1 + preIdx p' t.subtasks

mutual
/-- The multiset of ids of a subtree: each task contributes its id exactly
once. -/
def idMulT : Task → Multiset String
  | .mk i _ _ sub => i ::ₘ idMulF sub

/-- The multiset of ids of a forest. -/
def idMulF : List Task → Multiset String
  | [] => 0
  | t :: ts => idMulT t + idMulF ts
end

/-- A two-task demonstration model (cursor on the second root task). -/
def demo9 : Model :=
  { tasks := [.mk "a" "A" .Todo [], .mk "b" "B" .Todo []]
    cursorID := "b"
    previousID := ""
    undoStack := []
    redoStack := []
    maxHistorySize := 50 }

/-- A two-task demonstration model for the indent/unindent inverse law. -/
def demo3 : Model :=
  { tasks := [.mk "a" "A" .Todo [], .mk "b" "B" .Todo []]
    cursorID := "b"
    previousID := ""
    undoStack := []
    redoStack := []
    maxHistorySize := 50 }

/-- The capped history push of `takeSnapshot`: append the snapshot, evict the
oldest entry when the cap is exceeded. -/
def pushCap (cap : Nat) (u : List ModelSnapshot) (s : ModelSnapshot) :
    List ModelSnapshot :=
  if cap < (u ++ [s]).length then (u ++ [s]).tail else u ++ [s]

/-- Iterated capped pushes. -/
def pushCapFold (cap : Nat) : List ModelSnapshot → List ModelSnapshot →
    List ModelSnapshot
  | u, [] => u
  | u, s :: ss => pushCapFold cap (pushCap cap u s) ss

/-- An abstract mutating operation that records exactly one history snapshot:
it takes a snapshot and then rewrites the visible state (forest, cursor id,
previous id) as a pure function of the pre-operation visible state — the
common shape of every recording branch of `operations.go`. -/
def recordedOp (f : ModelSnapshot → ModelSnapshot) (m : Model) : Model :=
  let m1 := takeSnapshot m
  let s := f (currentSnapshot m)
  { m1 with tasks := s.tasks, cursorID := s.cursorID, previousID := s.previousID }

/-- Apply a sequence of recorded operations from left to right. -/
def applySeq : List (ModelSnapshot → ModelSnapshot) → Model → Model
  | [], m => m
  | f :: fs, m => applySeq fs (recordedOp f m)

/-- Iterate an engine operation. -/
def iterOp (g : Model → Model) : Nat → Model → Model
  | 0, m => m
  | n + 1, m => iterOp g n (g m)

/-- The pre-operation visible states of a sequence of recorded operations. -/
def snaps : List (ModelSnapshot → ModelSnapshot) → ModelSnapshot →
    List ModelSnapshot
  | [], _ => []
  | f :: fs, s => s :: snaps fs (f s)

/-- The visible state after a sequence of recorded operations. -/
def snapEnd : List (ModelSnapshot → ModelSnapshot) → ModelSnapshot →
    ModelSnapshot
  | [], s => s
  | f :: fs, s => snapEnd fs (f s)

/-- A one-task demonstration model with the default history cap. -/
def demo2 : Model :=
  { tasks := [.mk "a" "" .Todo []]
    cursorID := "a"
    previousID := ""
    undoStack := []
    redoStack := []
    maxHistorySize := 50 }

/-- A one-operation demonstration sequence. -/
def demoFs2 : List (ModelSnapshot → ModelSnapshot) :=
  [fun s => { s with cursorID := "" }]

/- ### Basic structural lemmas -/

@[simp] theorem Task.id_mk (i t s c) : (Task.mk i t s c).id = i := rfl

@[simp] theorem Task.title_mk (i t s c) : (Task.mk i t s c).title = t := rfl

@[simp] theorem Task.status_mk (i t s c) : (Task.mk i t s c).status = s := rfl

@[simp] theorem Task.subtasks_mk (i t s c) : (Task.mk i t s c).subtasks = c := rfl

@[simp] theorem Task.withSubtasks_mk (i t s c c') :
    (Task.mk i t s c).withSubtasks c' = Task.mk i t s c' := rfl

theorem Task.eta (t : Task) : Task.mk t.id t.title t.status t.subtasks = t := by
  cases t; rfl

@[simp] theorem Task.id_withSubtasks (t : Task) (c) : (t.withSubtasks c).id = t.id := by
  cases t; rfl

@[simp] theorem Task.subtasks_withSubtasks (t : Task) (c) :
    (t.withSubtasks c).subtasks = c := by
  cases t; rfl

@[simp] theorem Task.withSubtasks_withSubtasks (t : Task) (c c') :
    (t.withSubtasks c).withSubtasks c' = t.withSubtasks c' := by
  cases t; rfl

theorem Task.withSubtasks_self (t : Task) : t.withSubtasks t.subtasks = t := by
  cases t; rfl

/-- Nested induction over forests: the motive may assume itself for the head's
subtasks and for the tail. -/
theorem forestInduction {Q : List Task → Prop} (h2 : Q [])
    (h3 : ∀ i ti s sub ts, Q sub → Q ts → Q (.mk i ti s sub :: ts)) :
    ∀ ts, Q ts
  | [] => h2
  | .mk i ti s sub :: ts =>
    h3 i ti s sub ts (forestInduction h2 h3 sub) (forestInduction h2 h3 ts)

@[simp] theorem taskIdList_mk (i t s sub) :
    taskIdList (.mk i t s sub) = i :: forestIdList sub := rfl

@[simp] theorem forestIdList_nil : forestIdList [] = [] := rfl

@[simp] theorem forestIdList_cons (t ts) :
    forestIdList (t :: ts) = taskIdList t ++ forestIdList ts := rfl

theorem taskIdList_eq (t : Task) :
    taskIdList t = t.id :: forestIdList t.subtasks := by
  cases t; rfl

theorem forestIdList_append (l₁ l₂ : List Task) :
    forestIdList (l₁ ++ l₂) = forestIdList l₁ ++ forestIdList l₂ := by
  induction l₁ with
  | nil => rfl
  | cons t ts ih => simp [ih]

theorem mem_taskIdList_self (t : Task) : t.id ∈ taskIdList t := by
  rw [taskIdList_eq]; exact List.mem_cons_self _ _

theorem mem_forestIdList_lift {ts : List Task} {k : Nat} {u : Task} {a : String}
    (hk : ts[k]? = some u) (ha : a ∈ taskIdList u) : a ∈ forestIdList ts := by
  induction ts generalizing k with
  | nil => simp at hk
  | cons t ts ih =>
    cases k with
    | zero =>
      simp only [List.getElem?_cons_zero, Option.some.injEq] at hk
      subst hk
      simp [List.mem_append, ha]
    | succ k =>
      simp only [List.getElem?_cons_succ] at hk
      simp [List.mem_append, ih hk]

theorem mem_forestIdList_of_getElem {ts : List Task} {k : Nat} {u : Task}
    (hk : ts[k]? = some u) : u.id ∈ forestIdList ts :=
  mem_forestIdList_lift hk (mem_taskIdList_self u)

theorem nodup_sub_of_cons {i ti s sub ts}
    (h : (forestIdList (.mk i ti s sub :: ts)).Nodup) :
    (forestIdList sub).Nodup := by
  simp only [forestIdList_cons, taskIdList_mk, List.nodup_append, List.nodup_cons] at h
  exact h.1.2

theorem nodup_tail_of_cons {t ts}
    (h : (forestIdList (t :: ts)).Nodup) : (forestIdList ts).Nodup := by
  simp only [forestIdList_cons, List.nodup_append] at h
  exact h.2.1

theorem disjoint_of_cons {t ts}
    (h : (forestIdList (t :: ts)).Nodup) :
    ∀ a, a ∈ taskIdList t → a ∈ forestIdList ts → False := by
  simp only [forestIdList_cons, List.nodup_append] at h
  exact fun a h1 h2 => h.2.2 h1 h2

theorem nodup_of_getElem {ts : List Task} {k : Nat} {u : Task}
    (h : (forestIdList ts).Nodup) (hk : ts[k]? = some u) :
    (taskIdList u).Nodup := by
  induction ts generalizing k with
  | nil => simp at hk
  | cons t ts ih =>
    cases k with
    | zero =>
      simp only [List.getElem?_cons_zero, Option.some.injEq] at hk
      subst hk
      simp only [forestIdList_cons, List.nodup_append] at h
      exact h.1
    | succ k =>
      simp only [List.getElem?_cons_succ] at hk
      exact ih (nodup_tail_of_cons h) hk

theorem blocks_disjoint {ts : List Task} {k k' : Nat} {u u' : Task} {a : String}
    (h : (forestIdList ts).Nodup) (hk : ts[k]? = some u) (hk' : ts[k']? = some u')
    (hne : k ≠ k') (ha : a ∈ taskIdList u) (ha' : a ∈ taskIdList u') : False := by
  induction ts generalizing k k' with
  | nil => simp at hk
  | cons t ts ih =>
    cases k with
    | zero =>
      simp only [List.getElem?_cons_zero, Option.some.injEq] at hk
      subst hk
      cases k' with
      | zero => exact hne rfl
      | succ k' =>
        simp only [List.getElem?_cons_succ] at hk'
        exact disjoint_of_cons h a ha (mem_forestIdList_lift hk' ha')
    | succ k =>
      simp only [List.getElem?_cons_succ] at hk
      cases k' with
      | zero =>
        simp only [List.getElem?_cons_zero, Option.some.injEq] at hk'
        subst hk'
        exact disjoint_of_cons h a ha' (mem_forestIdList_lift hk ha)
      | succ k' =>
        simp only [List.getElem?_cons_succ] at hk'
        exact ih (nodup_tail_of_cons h) hk hk' (fun hh => hne (by omega))

/- ### `childIdx` lemmas -/

theorem childIdx_sound {tid : String} {l : List Task} {j : Nat}
    (h : childIdx tid l = some j) : ∃ t, l[j]? = some t ∧ t.id = tid := by
  induction l generalizing j with
  | nil => simp [childIdx] at h
  | cons t ts ih =>
    by_cases hid : t.id = tid
    · simp only [childIdx, if_pos hid, Option.some.injEq] at h
      subst h
      exact ⟨t, by simp, hid⟩
    · simp only [childIdx, if_neg hid] at h
      cases hc : childIdx tid ts with
      | none => rw [hc] at h; simp at h
      | some j' =>
        rw [hc] at h
        simp only [Option.map_some', Option.some.injEq] at h
        subst h
        obtain ⟨u, hu, hu2⟩ := ih hc
        exact ⟨u, by simpa using hu, hu2⟩

theorem childIdx_none {tid : String} : ∀ {l : List Task},
    childIdx tid l = none → ∀ (k : Nat) (t : Task), l[k]? = some t → t.id ≠ tid := by
  intro l
  induction l with
  | nil => intro _ k t hk; simp at hk
  | cons x xs ih =>
    intro h k t hk
    by_cases hid : x.id = tid
    · simp [childIdx, if_pos hid] at h
    · simp only [childIdx, if_neg hid, Option.map_eq_none'] at h
      cases k with
      | zero =>
        simp only [List.getElem?_cons_zero, Option.some.injEq] at hk
        subst hk; exact hid
      | succ k =>
        simp only [List.getElem?_cons_succ] at hk
        exact ih h k t hk

theorem childIdx_isSome_of_mem {tid : String} {l : List Task} {k : Nat} {t : Task}
    (hk : l[k]? = some t) (hid : t.id = tid) : (childIdx tid l).isSome := by
  induction l generalizing k with
  | nil => simp at hk
  | cons x xs ih =>
    by_cases hx : x.id = tid
    · simp [childIdx, if_pos hx]
    · simp only [childIdx, if_neg hx]
      cases k with
      | zero =>
        simp only [List.getElem?_cons_zero, Option.some.injEq] at hk
        subst hk; exact absurd hid hx
      | succ k =>
        simp only [List.getElem?_cons_succ] at hk
        have := ih hk
        cases hc : childIdx tid xs with
        | none => rw [hc] at this; simp at this
        | some j => simp [hc]

/-- Under unique ids, `childIdx` finds exactly the given occurrence. -/
theorem childIdx_char {tid : String} {l : List Task} {j : Nat} {t : Task}
    (hn : (forestIdList l).Nodup) (hj : l[j]? = some t) (hid : t.id = tid) :
    childIdx tid l = some j := by
  induction l generalizing j with
  | nil => simp at hj
  | cons x xs ih =>
    cases j with
    | zero =>
      simp only [List.getElem?_cons_zero, Option.some.injEq] at hj
      subst hj
      simp [childIdx, hid]
    | succ j =>
      simp only [List.getElem?_cons_succ] at hj
      have hxne : x.id ≠ tid := by
        intro hx
        have h1 : tid ∈ taskIdList x := by
          rw [taskIdList_eq, hx]; exact List.mem_cons_self _ _
        have h2 : tid ∈ forestIdList xs := by
          have := mem_forestIdList_of_getElem hj
          rwa [hid] at this
        exact disjoint_of_cons hn tid h1 h2
      rw [childIdx, if_neg hxne, ih (nodup_tail_of_cons hn) hj]
      rfl

/- ### `taskAt` lemmas -/

@[simp] theorem taskAt_nil_path (l : List Task) : taskAt [] l = none := rfl

theorem taskAt_single (l : List Task) (i : Nat) : taskAt [i] l = l[i]? := by
  unfold taskAt
  cases l[i]? <;> rfl

theorem taskAt_cons_cons (l : List Task) (i j : Nat) (p : List Nat) :
    taskAt (i :: j :: p) l =
      match l[i]? with
      | none => none
      | some t => taskAt (j :: p) t.subtasks := rfl

theorem mem_forestIdList_of_taskAt {l : List Task} {p : List Nat} {par : Task}
    {a : String} (hp : taskAt p l = some par) (ha : a ∈ taskIdList par) :
    a ∈ forestIdList l := by
  induction p generalizing l with
  | nil => simp at hp
  | cons i p ih =>
    cases p with
    | nil =>
      rw [taskAt_single] at hp
      exact mem_forestIdList_lift hp ha
    | cons j q =>
      rw [taskAt_cons_cons] at hp
      cases hl : l[i]? with
      | none => rw [hl] at hp; simp at hp
      | some x =>
        rw [hl] at hp
        have := ih hp
        refine mem_forestIdList_lift hl ?_
        rw [taskIdList_eq]
        exact List.mem_cons_of_mem _ this

/-- An occurrence as a child of the task at a non-empty path lies strictly
inside the subtree rooted at the path's first index. -/
theorem strict_mem {l : List Task} {hd : Nat} {rest : List Nat} {par t : Task}
    {j : Nat} (hp : taskAt (hd :: rest) l = some par)
    (hj : par.subtasks[j]? = some t) :
    ∃ x, l[hd]? = some x ∧ t.id ∈ forestIdList x.subtasks := by
  induction rest generalizing l hd with
  | nil =>
    rw [taskAt_single] at hp
    exact ⟨par, hp, mem_forestIdList_of_getElem hj⟩
  | cons j' q ih =>
    rw [taskAt_cons_cons] at hp
    cases hl : l[hd]? with
    | none => rw [hl] at hp; simp at hp
    | some x =>
      rw [hl] at hp
      obtain ⟨y, hy, hmem⟩ := ih hp
      refine ⟨x, rfl, ?_⟩
      refine mem_forestIdList_lift hy ?_
      rw [taskIdList_eq]
      exact List.mem_cons_of_mem _ hmem

/-- The id of a child occurrence is among the forest's ids. -/
theorem mem_of_occ {l : List Task} {p : List Nat} {par t : Task} {j : Nat}
    (hp : taskAt p l = some par) (hj : par.subtasks[j]? = some t) :
    t.id ∈ forestIdList l := by
  cases p with
  | nil => simp at hp
  | cons hd rest =>
    obtain ⟨x, hx, hmem⟩ := strict_mem hp hj
    refine mem_forestIdList_lift hx ?_
    rw [taskIdList_eq]
    exact List.mem_cons_of_mem _ hmem

/- ### `findTask` / `findForest` lemmas -/

theorem findTask_mk (tid i t s sub) :
    findTask tid (.mk i t s sub) =
      if i = tid then some (.mk i t s sub) else findForest tid sub := rfl

@[simp] theorem findForest_nil (tid) : findForest tid [] = none := rfl

theorem findForest_cons (tid t ts) :
    findForest tid (t :: ts) =
      match findTask tid t with
      | some r => some r
      | none => findForest tid ts := rfl

/-- Whatever `findTaskByID` returns carries the requested id. -/
theorem findForest_id {tid : String} : ∀ (ts : List Task) (r : Task),
    findForest tid ts = some r → r.id = tid := by
  refine forestInduction ?_ ?_
  · intro r h; simp at h
  · intro i ti s sub ts ihsub ihts r h
    rw [findForest_cons, findTask_mk] at h
    by_cases hid : i = tid
    · rw [if_pos hid] at h
      simp only [Option.some.injEq] at h
      subst h; exact hid
    · rw [if_neg hid] at h
      cases hsub : findForest tid sub with
      | some r₁ =>
        rw [hsub] at h
        simp only [Option.some.injEq] at h
        subst h; exact ihsub r₁ hsub
      | none =>
        rw [hsub] at h
        exact ihts r h

/-- `findTaskByID` succeeds exactly when the id occurs in the forest. -/
theorem findForest_isSome_iff {tid : String} : ∀ (ts : List Task),
    (findForest tid ts).isSome ↔ tid ∈ forestIdList ts := by
  refine forestInduction ?_ ?_
  · simp
  · intro i ti s sub ts ihsub ihts
    rw [findForest_cons, findTask_mk]
    by_cases hid : i = tid
    · simp [if_pos hid, hid]
    · rw [if_neg hid]
      constructor
      · intro h
        cases hsub : findForest tid sub with
        | some r =>
          have : tid ∈ forestIdList sub := ihsub.mp (by simp [hsub])
          simp [List.mem_append, this]
        | none =>
          rw [hsub] at h
          have : tid ∈ forestIdList ts := ihts.mp h
          simp [List.mem_append, this]
      · intro h
        simp only [forestIdList_cons, taskIdList_mk, List.cons_append,
          List.mem_cons, List.mem_append] at h
        rcases h with h | h | h
        · exact absurd h.symm hid
        · have := ihsub.mpr h
          cases hsub : findForest tid sub with
          | some r => simp [hsub]
          | none => rw [hsub] at this; simp at this
        · cases hsub : findForest tid sub with
          | some r => simp [hsub]
          | none => simpa using ihts.mpr h

/- ### `searchParent` soundness and completeness -/

theorem searchParent_nil (tid) : searchParent tid [] = none := by
  rw [searchParent]

theorem searchParent_cons (tid i t s sub ts) :
    searchParent tid (.mk i t s sub :: ts) =
      match childIdx tid sub with
      | some j => some ([0], j)
      | none =>
        match searchParent tid sub with
        | some (p, j) => some (0 :: p, j)
        | none =>
          match searchParent tid ts with
          | some (p, j) => some (shiftHead p, j)
          | none => none := by
  rw [searchParent]

/-- Whatever `searchParent` returns is a genuine parent/child occurrence. -/
theorem searchParent_sound {tid : String} : ∀ (l : List Task),
    ∀ (p : List Nat) (j : Nat), searchParent tid l = some (p, j) →
    ∃ par t, taskAt p l = some par ∧ par.subtasks[j]? = some t ∧ t.id = tid := by
  refine forestInduction ?_ ?_
  · intro p j h; simp [searchParent_nil] at h
  · intro i ti s sub ts ihsub ihts p j h
    rw [searchParent_cons] at h
    cases hc : childIdx tid sub with
    | some j0 =>
      rw [hc] at h
      simp only [Option.some.injEq, Prod.mk.injEq] at h
      obtain ⟨hp, hj⟩ := h
      subst hp; subst hj
      obtain ⟨t, ht, htid⟩ := childIdx_sound hc
      exact ⟨.mk i ti s sub, t, by simp [taskAt_single], by simpa using ht, htid⟩
    | none =>
      rw [hc] at h
      cases hs : searchParent tid sub with
      | some pj =>
        obtain ⟨p1, j1⟩ := pj
        rw [hs] at h
        simp only [Option.some.injEq, Prod.mk.injEq] at h
        obtain ⟨hp, hj⟩ := h
        subst hp; subst hj
        obtain ⟨par, t, hpar, hget, htid⟩ := ihsub p1 j1 hs
        refine ⟨par, t, ?_, hget, htid⟩
        cases p1 with
        | nil => simp at hpar
        | cons a b =>
          rw [taskAt_cons_cons]
          simpa using hpar
      | none =>
        rw [hs] at h
        cases ht : searchParent tid ts with
        | some pj =>
          obtain ⟨p1, j1⟩ := pj
          rw [ht] at h
          simp only [Option.some.injEq, Prod.mk.injEq] at h
          obtain ⟨hp, hj⟩ := h
          subst hp; subst hj
          obtain ⟨par, t, hpar, hget, htid⟩ := ihts p1 j1 ht
          refine ⟨par, t, ?_, hget, htid⟩
          cases p1 with
          | nil => simp at hpar
          | cons a b =>
            show taskAt ((a + 1) :: b) (.mk i ti s sub :: ts) = some par
            cases b with
            | nil =>
              rw [taskAt_single] at hpar ⊢
              simpa using hpar
            | cons b1 b2 =>
              rw [taskAt_cons_cons] at hpar ⊢
              simpa using hpar
        | none => rw [ht] at h; exact absurd h (by simp)

/-- If the id occurs anywhere in the forest, `findParentTask`'s linear scan or
its recursive search succeeds. -/
theorem searchParent_complete {tid : String} : ∀ (l : List Task),
    tid ∈ forestIdList l →
    (childIdx tid l).isSome ∨ (searchParent tid l).isSome := by
  refine forestInduction ?_ ?_
  · intro h; simp at h
  · intro i ti s sub ts ihsub ihts h
    simp only [forestIdList_cons, taskIdList_mk, List.cons_append,
      List.mem_cons, List.mem_append] at h
    rcases h with h | h | h
    · left
      subst h
      simp [childIdx]
    · right
      rw [searchParent_cons]
      rcases ihsub h with hc | hs
      · cases hcc : childIdx tid sub with
        | none => rw [hcc] at hc; simp at hc
        | some j => simp [hcc]
      · cases hcc : childIdx tid sub with
        | some j => simp [hcc]
        | none =>
          cases hss : searchParent tid sub with
          | none => rw [hss] at hs; simp at hs
          | some pj => simp [hcc, hss]
    · rcases ihts h with hc | hs
      · left
        cases hcc : childIdx tid ts with
        | none => rw [hcc] at hc; simp at hc
        | some j =>
          by_cases hid : i = tid
          · simp [childIdx, hid]
          · simp [childIdx, hid, hcc]
      · right
        rw [searchParent_cons]
        cases hcc : childIdx tid sub with
        | some j => simp
        | none =>
          cases hss : searchParent tid sub with
          | some pj => simp
          | none =>
            cases hts : searchParent tid ts with
            | none => rw [hts] at hs; simp at hs
            | some pj => simp [hts]

theorem taskAt_nil_forest (p : List Nat) : taskAt p [] = none := by
  cases p with
  | nil => rfl
  | cons i q => unfold taskAt; simp

theorem taskAt_cons_succ (x : Task) (ts : List Task) (n : Nat) (rest : List Nat) :
    taskAt ((n + 1) :: rest) (x :: ts) = taskAt (n :: rest) ts := by
  cases rest with
  | nil => rw [taskAt_single, taskAt_single]; simp
  | cons a b => rw [taskAt_cons_cons, taskAt_cons_cons]; simp

/-- Under unique ids, an id that occurs strictly below the top level does not
occur at the top level. -/
theorem childIdx_none_of_strict {tid : String} {l : List Task} {hd : Nat}
    {rest : List Nat} {par t : Task} {j : Nat}
    (hn : (forestIdList l).Nodup) (hp : taskAt (hd :: rest) l = some par)
    (hj : par.subtasks[j]? = some t) (htid : t.id = tid) :
    childIdx tid l = none := by
  cases hcc : childIdx tid l with
  | none => rfl
  | some k =>
    exfalso
    obtain ⟨u, hu, huid⟩ := childIdx_sound hcc
    obtain ⟨x, hx, hmem⟩ := strict_mem hp hj
    rw [htid] at hmem
    by_cases hk : k = hd
    · subst hk
      rw [hu] at hx
      injection hx with hx
      subst hx
      have hnu := nodup_of_getElem hn hu
      rw [taskIdList_eq, List.nodup_cons] at hnu
      exact hnu.1 (huid ▸ hmem)
    · have h1 : tid ∈ taskIdList u := by
        rw [← huid]; exact mem_taskIdList_self u
      have h2 : tid ∈ taskIdList x := by
        rw [taskIdList_eq]; exact List.mem_cons_of_mem _ hmem
      exact blocks_disjoint hn hu hx hk h1 h2

/-- Under unique ids, `searchParent` returns exactly the parent/child
occurrence of the id. -/
theorem searchParent_char {tid : String} : ∀ (l : List Task),
    (forestIdList l).Nodup →
    ∀ (p : List Nat) (j : Nat) (par t : Task),
      taskAt p l = some par → par.subtasks[j]? = some t → t.id = tid →
      searchParent tid l = some (p, j) := by
  refine forestInduction ?_ ?_
  · intro _ p j par t hp _ _
    rw [taskAt_nil_forest] at hp
    exact absurd hp (by simp)
  · intro i ti s sub ts ihsub ihts hn p j par t hp hj htid
    cases p with
    | nil => simp at hp
    | cons hd rest =>
      cases hd with
      | zero =>
        cases rest with
        | nil =>
          rw [taskAt_single] at hp
          simp only [List.getElem?_cons_zero, Option.some.injEq] at hp
          subst hp
          rw [searchParent_cons]
          have hc : childIdx tid sub = some j :=
            childIdx_char (nodup_sub_of_cons hn) (by simpa using hj) htid
          rw [hc]
        | cons r1 r2 =>
          rw [taskAt_cons_cons] at hp
          simp only [List.getElem?_cons_zero, Task.subtasks_mk] at hp
          have hnsub := nodup_sub_of_cons hn
          have hcnone : childIdx tid sub = none :=
            childIdx_none_of_strict hnsub hp hj htid
          rw [searchParent_cons, hcnone,
            ihsub hnsub (r1 :: r2) j par t hp hj htid]
      | succ n =>
        have hp' : taskAt (n :: rest) ts = some par := by
          rw [← taskAt_cons_succ (.mk i ti s sub)]
          exact hp
        have htid_ts : tid ∈ forestIdList ts := htid ▸ mem_of_occ hp' hj
        have hnot : tid ∉ taskIdList (.mk i ti s sub) := fun hmem =>
          disjoint_of_cons hn tid hmem htid_ts
        have hc1 : childIdx tid sub = none := by
          cases hcc : childIdx tid sub with
          | none => rfl
          | some k =>
            exfalso
            obtain ⟨u, hu, huid⟩ := childIdx_sound hcc
            refine hnot ?_
            rw [taskIdList_mk]
            exact List.mem_cons_of_mem _ (huid ▸ mem_forestIdList_of_getElem hu)
        have hc2 : searchParent tid sub = none := by
          cases hss : searchParent tid sub with
          | none => rfl
          | some pj =>
            exfalso
            obtain ⟨p1, j1⟩ := pj
            obtain ⟨par1, t1, hpar1, hj1, htid1⟩ := searchParent_sound sub p1 j1 hss
            refine hnot ?_
            rw [taskIdList_mk]
            exact List.mem_cons_of_mem _ (htid1 ▸ mem_of_occ hpar1 hj1)
        rw [searchParent_cons, hc1, hc2,
          ihts (nodup_tail_of_cons hn) (n :: rest) j par t hp' hj htid]
        rfl

/- ### `findParent` lemmas -/

theorem findParent_sound {ts : List Task} {tid : String} {c : Option (List Nat)}
    {j : Nat} (h : findParent ts tid = some (c, j)) :
    ∃ cont t, containerAt ts c = some cont ∧ cont[j]? = some t ∧ t.id = tid := by
  unfold findParent at h
  cases hcc : childIdx tid ts with
  | some i =>
    rw [hcc] at h
    simp only [Option.some.injEq, Prod.mk.injEq] at h
    obtain ⟨hc, hj⟩ := h
    subst hc; subst hj
    obtain ⟨t, ht, htid⟩ := childIdx_sound hcc
    exact ⟨ts, t, rfl, ht, htid⟩
  | none =>
    rw [hcc] at h
    cases hss : searchParent tid ts with
    | none => rw [hss] at h; exact absurd h (by simp)
    | some pj =>
      obtain ⟨p1, j1⟩ := pj
      rw [hss] at h
      simp only [Option.some.injEq, Prod.mk.injEq] at h
      obtain ⟨hc, hj⟩ := h
      subst hc; subst hj
      obtain ⟨par, t, hpar, hget, htid⟩ := searchParent_sound ts p1 j1 hss
      exact ⟨par.subtasks, t, by simp [containerAt, hpar], hget, htid⟩

theorem findParent_isSome_of_mem {ts : List Task} {tid : String}
    (h : tid ∈ forestIdList ts) : (findParent ts tid).isSome := by
  unfold findParent
  rcases searchParent_complete ts h with hc | hs
  · cases hcc : childIdx tid ts with
    | none => rw [hcc] at hc; simp at hc
    | some i => simp
  · cases hcc : childIdx tid ts with
    | some i => simp
    | none =>
      cases hss : searchParent tid ts with
      | none => rw [hss] at hs; simp at hs
      | some pj => simp [hss]

theorem findParent_mem_of_isSome {ts : List Task} {tid : String}
    (h : (findParent ts tid).isSome) : tid ∈ forestIdList ts := by
  cases hfp : findParent ts tid with
  | none => rw [hfp] at h; simp at h
  | some cj =>
    obtain ⟨c, j⟩ := cj
    obtain ⟨cont, t, hc, hj, htid⟩ := findParent_sound hfp
    cases c with
    | none =>
      simp only [containerAt, Option.some.injEq] at hc
      subst hc
      exact htid ▸ mem_forestIdList_of_getElem hj
    | some p =>
      simp only [containerAt, Option.map_eq_some'] at hc
      obtain ⟨par, hpar, hsub⟩ := hc
      subst hsub
      exact htid ▸ mem_of_occ hpar hj

/-- `findTaskByID` and `findParentTask` agree on whether an id resolves. -/
theorem resolve_iff_findParent {ts : List Task} {tid : String} :
    (findForest tid ts).isSome ↔ (findParent ts tid).isSome := by
  rw [findForest_isSome_iff]
  exact ⟨findParent_isSome_of_mem, findParent_mem_of_isSome⟩

/-- Under unique ids, `findParentTask` returns exactly the container and index
of the task with the given id. -/
theorem findParent_char {ts : List Task} {tid : String} {c : Option (List Nat)}
    {j : Nat} {cont : List Task} {t : Task}
    (hn : (forestIdList ts).Nodup) (hc : containerAt ts c = some cont)
    (hj : cont[j]? = some t) (htid : t.id = tid) :
    findParent ts tid = some (c, j) := by
  cases c with
  | none =>
    simp only [containerAt, Option.some.injEq] at hc
    subst hc
    unfold findParent
    rw [childIdx_char hn hj htid]
  | some p =>
    simp only [containerAt, Option.map_eq_some'] at hc
    obtain ⟨par, hpar, hsub⟩ := hc
    subst hsub
    cases p with
    | nil => simp at hpar
    | cons hd rest =>
      unfold findParent
      rw [childIdx_none_of_strict hn hpar hj htid,
        searchParent_char ts hn (hd :: rest) j par t hpar hj htid]

/- ### Slice decomposition lemmas -/

theorem exists_decomp {l : List Task} {k : Nat} {x : Task}
    (h : l[k]? = some x) : ∃ A B, l = A ++ x :: B ∧ A.length = k := by
  induction l generalizing k with
  | nil => simp at h
  | cons y ys ih =>
    cases k with
    | zero =>
      simp only [List.getElem?_cons_zero, Option.some.injEq] at h
      subst h
      exact ⟨[], ys, rfl, rfl⟩
    | succ k =>
      simp only [List.getElem?_cons_succ] at h
      obtain ⟨A, B, hAB, hlen⟩ := ih h
      exact ⟨y :: A, B, by rw [hAB]; rfl, by simp [hlen]⟩

theorem getElem?_decomp_self {A B : List Task} {x : Task} :
    (A ++ x :: B)[A.length]? = some x := by
  induction A with
  | nil => simp
  | cons y ys ih => simpa using ih

theorem getElem?_decomp_lt {A B : List Task} {x : Task} {k : Nat}
    (hk : k < A.length) : (A ++ x :: B)[k]? = A[k]? := by
  induction A generalizing k with
  | nil => simp at hk
  | cons y ys ih =>
    cases k with
    | zero => simp
    | succ k => simpa using ih (by simpa using hk)

theorem modifyIdx_append {A B : List Task} {x : Task} (f : Task → Task) :
    modifyIdx (A ++ x :: B) A.length f = A ++ f x :: B := by
  induction A with
  | nil => rfl
  | cons y ys ih => simpa [modifyIdx] using ih

theorem removeTaskFromSlice_append {A B : List Task} {x : Task} :
    removeTaskFromSlice (A ++ x :: B) A.length = A ++ B := by
  induction A with
  | nil => rfl
  | cons y ys ih => simpa [removeTaskFromSlice] using ih

theorem insertTaskInSlice_append {A B : List Task} (x : Task) :
    insertTaskInSlice (A ++ B) A.length x = A ++ x :: B := by
  induction A with
  | nil => simp [insertTaskInSlice]
  | cons y ys ih => simpa [insertTaskInSlice] using ih

theorem swapWithPrev_append {A B : List Task} {a b : Task} :
    swapWithPrev (A ++ b :: a :: B) (A.length + 1) = A ++ a :: b :: B := by
  have h1 : (A ++ b :: a :: B)[A.length + 1]? = some a := by
    have : A ++ b :: a :: B = (A ++ [b]) ++ a :: B := by simp
    rw [this]
    have hl : A.length + 1 = (A ++ [b]).length := by simp
    rw [hl]
    exact getElem?_decomp_self
  have h2 : (A ++ b :: a :: B)[A.length]? = some b :=
    getElem?_decomp_self (A := A) (B := a :: B) (x := b)
  have hset1 : (A ++ b :: a :: B).set (A.length + 1) b = A ++ b :: b :: B := by
    induction A with
    | nil => rfl
    | cons y ys ih => simp [List.set, ih]
  have hset2 : (A ++ b :: b :: B).set A.length a = A ++ a :: b :: B := by
    induction A with
    | nil => rfl
    | cons y ys ih => simp [List.set, ih]
  simp only [swapWithPrev, h1, h2, hset1, Nat.add_sub_cancel, hset2]

/- ### Labelled pre-order flattening and the context lemma -/

mutual
/-- Labels of a subtree in pre-order, for a node-labelling function. -/
def labelTask {α : Type} (lab : Task → α) : Task → List α
  | .mk i t s sub => lab (.mk i t s sub) :: labelForest lab sub

/-- Labels of a forest in pre-order. -/
def labelForest {α : Type} (lab : Task → α) : List Task → List α
  | [] => []
  | t :: ts => labelTask lab t ++ labelForest lab ts
end

/-- The id/title/status triple of a node (its subtasks are not part of it). -/
def taskTriple (t : Task) : String × String × TaskStatus :=
  (t.id, t.title, t.status)

@[simp] theorem labelForest_nil {α : Type} (lab : Task → α) :
    labelForest lab [] = [] := rfl

@[simp] theorem labelForest_cons {α : Type} (lab : Task → α) (t ts) :
    labelForest lab (t :: ts) = labelTask lab t ++ labelForest lab ts := rfl

theorem labelTask_eq {α : Type} (lab : Task → α) (t : Task) :
    labelTask lab t = lab t :: labelForest lab t.subtasks := by
  cases t; rfl

theorem labelForest_append {α : Type} (lab : Task → α) (l₁ l₂ : List Task) :
    labelForest lab (l₁ ++ l₂) = labelForest lab l₁ ++ labelForest lab l₂ := by
  induction l₁ with
  | nil => rfl
  | cons t ts ih => simp [ih]

theorem forestIdList_eq_label : ∀ ts : List Task,
    forestIdList ts = labelForest Task.id ts := by
  refine forestInduction ?_ ?_
  · rfl
  · intro i ti s sub ts ihsub ihts
    simp only [forestIdList_cons, taskIdList_mk, labelForest_cons]
    rw [labelTask_eq]
    simp [ihsub, ihts]

/-- Context lemma: the labelled pre-order of a forest splits around the subtree
at any valid path, uniformly in a rewrite of that subtree (labels of tasks on
the path do not depend on their subtasks). -/
theorem labelForest_ctx {α : Type} {lab : Task → α}
    (hlab : ∀ x c, lab (x.withSubtasks c) = lab x) :
    ∀ (p : List Nat) (ts : List Task) (u : Task), taskAt p ts = some u →
    ∃ A B, labelForest lab ts = A ++ labelTask lab u ++ B ∧
      ∀ g, labelForest lab (modifyAt p g ts) = A ++ labelTask lab (g u) ++ B := by
  intro p
  induction p with
  | nil => intro ts u hp; simp at hp
  | cons i p' ihp =>
    intro ts u hp
    unfold taskAt at hp
    cases hx : ts[i]? with
    | none => rw [hx] at hp; exact absurd hp (by simp)
    | some x =>
      rw [hx] at hp
      obtain ⟨A₀, B₀, hts, hlen⟩ := exists_decomp hx
      subst hts
      cases p' with
      | nil =>
        simp only [Option.some.injEq] at hp
        subst hp
        refine ⟨labelForest lab A₀, labelForest lab B₀, ?_, ?_⟩
        · simp [labelForest_append]
        · intro g
          have hmod : modifyAt [i] g (A₀ ++ x :: B₀) = A₀ ++ g x :: B₀ := by
            unfold modifyAt
            rw [← hlen]
            exact modifyIdx_append _
          rw [hmod]
          simp [labelForest_append]
      | cons q1 q2 =>
        obtain ⟨A', B', hEq, hMod⟩ := ihp x.subtasks u hp
        refine ⟨labelForest lab A₀ ++ (lab x :: A'), B' ++ labelForest lab B₀, ?_, ?_⟩
        · rw [labelForest_append, labelForest_cons, labelTask_eq, hEq]
          simp
        · intro g
          have hstep : modifyAt (i :: q1 :: q2) g (A₀ ++ x :: B₀) =
              A₀ ++ x.withSubtasks (modifyAt (q1 :: q2) g x.subtasks) :: B₀ := by
            unfold modifyAt
            rw [← hlen]
            exact modifyIdx_append _
          rw [hstep, labelForest_append, labelForest_cons, labelTask_eq]
          rw [Task.subtasks_withSubtasks, hlab, hMod g]
          simp

/- ### `taskAt` / `modifyAt` interaction -/

theorem getElem?_modifyIdx_self {l : List Task} {k : Nat} {x : Task}
    (h : l[k]? = some x) (f : Task → Task) :
    (modifyIdx l k f)[k]? = some (f x) := by
  induction l generalizing k with
  | nil => simp at h
  | cons y ys ih =>
    cases k with
    | zero =>
      simp only [List.getElem?_cons_zero, Option.some.injEq] at h
      subst h
      simp [modifyIdx]
    | succ k =>
      simp only [List.getElem?_cons_succ] at h
      simpa [modifyIdx] using ih h

theorem modifyIdx_modifyIdx {l : List Task} {k : Nat} (f g : Task → Task) :
    modifyIdx (modifyIdx l k g) k f = modifyIdx l k (fun t => f (g t)) := by
  induction l generalizing k with
  | nil => rfl
  | cons y ys ih =>
    cases k with
    | zero => rfl
    | succ k => simpa [modifyIdx] using ih

theorem modifyIdx_id {l : List Task} {k : Nat} {x : Task} {f : Task → Task}
    (h : l[k]? = some x) (hf : f x = x) : modifyIdx l k f = l := by
  induction l generalizing k with
  | nil => rfl
  | cons y ys ih =>
    cases k with
    | zero =>
      simp only [List.getElem?_cons_zero, Option.some.injEq] at h
      subst h
      simp [modifyIdx, hf]
    | succ k =>
      simp only [List.getElem?_cons_succ] at h
      simpa [modifyIdx] using ih h

theorem taskAt_cons_ne_nil (i : Nat) (p' : List Nat) (ts : List Task) :
    taskAt (i :: p') ts =
      match ts[i]? with
      | none => none
      | some t =>
        match p' with
        | [] => some t
        | _ => taskAt p' t.subtasks := by
  rw [taskAt]

theorem modifyAt_cons (i : Nat) (p' : List Nat) (f : Task → Task) (ts : List Task) :
    modifyAt (i :: p') f ts =
      modifyIdx ts i (fun t =>
        match p' with
        | [] => f t
        | _ => t.withSubtasks (modifyAt p' f t.subtasks)) := by
  rw [modifyAt]

theorem taskAt_modifyAt_self {p : List Nat} :
    ∀ {ts : List Task} {u : Task} (g : Task → Task), taskAt p ts = some u →
    taskAt p (modifyAt p g ts) = some (g u) := by
  induction p with
  | nil => intro ts u g hp; simp at hp
  | cons i p' ih =>
    intro ts u g hp
    rw [taskAt_cons_ne_nil] at hp
    cases hx : ts[i]? with
    | none => rw [hx] at hp; exact absurd hp (by simp)
    | some x =>
      rw [hx] at hp
      rw [modifyAt_cons, taskAt_cons_ne_nil]
      cases p' with
      | nil =>
        simp only [Option.some.injEq] at hp
        subst hp
        rw [getElem?_modifyIdx_self hx]
      | cons q1 q2 =>
        rw [getElem?_modifyIdx_self hx]
        simp only [Task.subtasks_withSubtasks]
        exact ih (g := g) hp

theorem modifyAt_modifyAt {p : List Nat} :
    ∀ (f g : Task → Task) (ts : List Task),
    modifyAt p f (modifyAt p g ts) = modifyAt p (fun t => f (g t)) ts := by
  induction p with
  | nil => intro f g ts; rfl
  | cons i p' ih =>
    intro f g ts
    rw [modifyAt_cons, modifyAt_cons, modifyAt_cons, modifyIdx_modifyIdx]
    congr 1
    funext t
    cases p' with
    | nil => rfl
    | cons q1 q2 =>
      simp only [Task.subtasks_withSubtasks, Task.withSubtasks_withSubtasks]
      rw [ih]

theorem modifyAt_id {p : List Nat} :
    ∀ {ts : List Task} {u : Task} {g : Task → Task},
    taskAt p ts = some u → g u = u → modifyAt p g ts = ts := by
  induction p with
  | nil => intro ts u g hp _; rfl
  | cons i p' ih =>
    intro ts u g hp hg
    rw [taskAt_cons_ne_nil] at hp
    cases hx : ts[i]? with
    | none => rw [hx] at hp; exact absurd hp (by simp)
    | some x =>
      rw [hx] at hp
      rw [modifyAt_cons]
      cases p' with
      | nil =>
        simp only [Option.some.injEq] at hp
        subst hp
        exact modifyIdx_id hx hg
      | cons q1 q2 =>
        refine modifyIdx_id hx ?_
        rw [ih hp hg, Task.withSubtasks_self]

theorem taskAt_cons_of_getElem {ts : List Task} {a : Nat} {x : Task}
    (hx : ts[a]? = some x) (b : Nat) (rest : List Nat) :
    taskAt (a :: b :: rest) ts = taskAt (b :: rest) x.subtasks := by
  rw [taskAt_cons_cons, hx]

/-- `modifyAt` on a path of length at least two steps into the subtasks. -/
theorem modifyAt_cons_cons (a b : Nat) (rest : List Nat) (f : Task → Task)
    (ts : List Task) :
    modifyAt (a :: b :: rest) f ts =
      modifyIdx ts a
        (fun t => t.withSubtasks (modifyAt (b :: rest) f t.subtasks)) := by
  rw [modifyAt_cons]

theorem modifyAt_single (a : Nat) (f : Task → Task) (ts : List Task) :
    modifyAt [a] f ts = modifyIdx ts a f := by
  rw [modifyAt_cons]

theorem taskAt_append_singleton {q : List Nat} (hq : q ≠ []) (i : Nat) :
    ∀ ts : List Task,
    taskAt (q ++ [i]) ts = (taskAt q ts).bind (fun u => u.subtasks[i]?) := by
  induction q with
  | nil => exact absurd rfl hq
  | cons a q' ih =>
    intro ts
    cases q' with
    | nil =>
      simp only [List.cons_append, List.nil_append]
      cases hx : ts[a]? with
      | none =>
        rw [taskAt_cons_cons, hx, taskAt_single, hx]
        rfl
      | some x =>
        rw [taskAt_cons_of_getElem hx, taskAt_single, taskAt_single, hx]
        rfl
    | cons b q'' =>
      simp only [List.cons_append]
      cases hx : ts[a]? with
      | none =>
        rw [taskAt_cons_cons, hx, taskAt_cons_cons, hx]
        rfl
      | some x =>
        rw [taskAt_cons_of_getElem hx, taskAt_cons_of_getElem hx]
        have happ := ih (by simp) x.subtasks
        simp only [List.cons_append] at happ
        exact happ

theorem modifyAt_append_singleton {q : List Nat} (hq : q ≠ []) (i : Nat)
    (f : Task → Task) :
    ∀ ts : List Task,
    modifyAt (q ++ [i]) f ts =
      modifyAt q (fun u => u.withSubtasks (modifyIdx u.subtasks i f)) ts := by
  induction q with
  | nil => exact absurd rfl hq
  | cons a q' ih =>
    intro ts
    cases q' with
    | nil =>
      simp only [List.cons_append, List.nil_append]
      rw [modifyAt_cons_cons, modifyAt_single]
      simp only [modifyAt_single]
    | cons b q'' =>
      simp only [List.cons_append]
      rw [modifyAt_cons_cons, modifyAt_cons_cons]
      congr 1
      funext t
      have happ := ih (by simp) t.subtasks
      simp only [List.cons_append] at happ
      rw [happ]

/- ### Container-level lemmas -/

/-- Path of the `i`-th element of the container designated by `c`. -/
def elemPath (c : Option (List Nat)) (i : Nat) : List Nat :=
  match c with
  | none => [i]
  | some p => p ++ [i]

theorem taskAt_elemPath {ts : List Task} {c : Option (List Nat)} {C : List Task}
    (hc : containerAt ts c = some C) (i : Nat) :
    taskAt (elemPath c i) ts = C[i]? := by
  cases c with
  | none =>
    simp only [containerAt, Option.some.injEq] at hc
    subst hc
    exact taskAt_single ts i
  | some p =>
    simp only [containerAt, Option.map_eq_some'] at hc
    obtain ⟨par, hpar, hsub⟩ := hc
    subst hsub
    cases p with
    | nil => simp at hpar
    | cons a q =>
      show taskAt ((a :: q) ++ [i]) ts = par.subtasks[i]?
      rw [taskAt_append_singleton (by simp) i, hpar]
      rfl

theorem containerAt_containerModify_self {ts : List Task} {c : Option (List Nat)}
    {C : List Task} (hc : containerAt ts c = some C) (f : List Task → List Task) :
    containerAt (containerModify ts c f) c = some (f C) := by
  cases c with
  | none =>
    simp only [containerAt, Option.some.injEq] at hc
    subst hc
    rfl
  | some p =>
    simp only [containerAt, Option.map_eq_some'] at hc
    obtain ⟨par, hpar, hsub⟩ := hc
    subst hsub
    simp only [containerModify, containerAt]
    rw [taskAt_modifyAt_self _ hpar]
    simp

theorem containerModify_containerModify {ts : List Task} {c : Option (List Nat)}
    (f g : List Task → List Task) :
    containerModify (containerModify ts c g) c f =
      containerModify ts c (fun C => f (g C)) := by
  cases c with
  | none => rfl
  | some p =>
    simp only [containerModify]
    rw [modifyAt_modifyAt]
    congr 1
    funext t
    simp

theorem containerModify_id {ts : List Task} {c : Option (List Nat)} {C : List Task}
    {f : List Task → List Task} (hc : containerAt ts c = some C) (hf : f C = C) :
    containerModify ts c f = ts := by
  cases c with
  | none =>
    simp only [containerAt, Option.some.injEq] at hc
    subst hc
    exact hf
  | some p =>
    simp only [containerAt, Option.map_eq_some'] at hc
    obtain ⟨par, hpar, hsub⟩ := hc
    subst hsub
    refine modifyAt_id hpar ?_
    rw [hf, Task.withSubtasks_self]

/-- Context lemma at container level: the labelled pre-order splits around any
valid container, uniformly in a rewrite of that container. -/
theorem labelForest_container_ctx {α : Type} {lab : Task → α}
    (hlab : ∀ x c, lab (x.withSubtasks c) = lab x)
    {ts : List Task} {c : Option (List Nat)} {C : List Task}
    (hc : containerAt ts c = some C) :
    ∃ A B, labelForest lab ts = A ++ labelForest lab C ++ B ∧
      ∀ f, labelForest lab (containerModify ts c f) =
        A ++ labelForest lab (f C) ++ B := by
  cases c with
  | none =>
    simp only [containerAt, Option.some.injEq] at hc
    subst hc
    exact ⟨[], [], by simp, fun f => by simp [containerModify]⟩
  | some p =>
    simp only [containerAt, Option.map_eq_some'] at hc
    obtain ⟨par, hpar, hsub⟩ := hc
    subst hsub
    obtain ⟨A, B, hEq, hMod⟩ := labelForest_ctx hlab p ts par hpar
    refine ⟨A ++ [lab par], B, ?_, ?_⟩
    · rw [hEq, labelTask_eq]
      simp
    · intro f
      simp only [containerModify]
      rw [hMod, labelTask_eq]
      simp [hlab]

/- ### Claim C10: unresolved cursor makes status changes a total no-op -/

/-- C10: when the cursor id does not resolve to any task (including the empty
forest), `changeTaskStatus` in either direction returns the model unchanged:
no task status changes, no snapshot is pushed, the redo stack is untouched. -/
theorem changeTaskStatus_noop_of_unresolved (m : Model)
    (h : getCurrentTask m = none) :
    ∀ direction : Int, changeTaskStatus m direction = m := by
  intro direction
  unfold changeTaskStatus
  rw [h]

/-- Witness for C10 at the empty forest. -/
theorem changeTaskStatus_noop_of_unresolved_witness :
    changeTaskStatus (initModel []) 1 = initModel [] ∧
    changeTaskStatus (initModel []) (-1) = initModel [] :=
  ⟨changeTaskStatus_noop_of_unresolved (initModel []) rfl 1,
   changeTaskStatus_noop_of_unresolved (initModel []) rfl (-1)⟩

/- ### Claim C1: structural edits are no-ops when their precondition fails -/

/-- C1: each structural edit (`moveTaskUp`, `moveTaskDown`, `indentTask`,
`unindentTask`, `deleteCurrentTask`) returns the state entirely unchanged —
forest, cursor, previous id and both history stacks, with no snapshot pushed —
when its precondition fails: the cursor id does not resolve, or the task is
first in its container (moveUp/indent), last (moveDown), or root-level
(unindent). -/
theorem structural_noop_on_failed_precondition (m : Model) :
    (getCurrentTask m = none →
      moveTaskUp m = m ∧ moveTaskDown m = m ∧ indentTask m = m ∧
      unindentTask m = m ∧ deleteCurrentTask m = m) ∧
    (∀ c, findParent m.tasks m.cursorID = some (c, 0) →
      moveTaskUp m = m ∧ indentTask m = m) ∧
    (∀ c k C, findParent m.tasks m.cursorID = some (c, k) →
      containerAt m.tasks c = some C → C.length - 1 ≤ k →
      moveTaskDown m = m) ∧
    (∀ k, findParent m.tasks m.cursorID = some (none, k) →
      unindentTask m = m) := by
  refine ⟨?_, ?_, ?_, ?_⟩
  · intro h
    have hfp : findParent m.tasks m.cursorID = none := by
      have h1 : ¬ (findForest m.cursorID m.tasks).isSome := by
        unfold getCurrentTask at h
        simp [h]
      have h2 : ¬ (findParent m.tasks m.cursorID).isSome := fun hs =>
        h1 (resolve_iff_findParent.mpr hs)
      simpa using (Option.not_isSome_iff_eq_none.mp h2)
    refine ⟨?_, ?_, ?_, ?_, ?_⟩
    · unfold moveTaskUp; rw [hfp]
    · unfold moveTaskDown; rw [hfp]
    · unfold indentTask; rw [hfp]
    · unfold unindentTask; rw [hfp]
    · unfold deleteCurrentTask; rw [hfp]
  · intro c hc
    constructor
    · unfold moveTaskUp; rw [hc]; simp
    · unfold indentTask; rw [hc]; simp
  · intro c k C hc hcont hlast
    unfold moveTaskDown
    simp only [hc, hcont]
    simp [hlast]
  · intro k hk
    unfold unindentTask
    rw [hk]

/-- Witness for C1: a singleton forest (cursor on the only task, which is both
first and last at root level) and the empty forest. -/
theorem structural_noop_on_failed_precondition_witness :
    moveTaskUp (initModel [Task.mk "a" "" .Todo []]) =
      initModel [Task.mk "a" "" .Todo []] ∧
    moveTaskDown (initModel [Task.mk "a" "" .Todo []]) =
      initModel [Task.mk "a" "" .Todo []] ∧
    unindentTask (initModel [Task.mk "a" "" .Todo []]) =
      initModel [Task.mk "a" "" .Todo []] ∧
    deleteCurrentTask (initModel []) = initModel [] := by
  refine ⟨?_, ?_, ?_, ?_⟩
  · exact ((structural_noop_on_failed_precondition
      (initModel [Task.mk "a" "" .Todo []])).2.1 none rfl).1
  · exact (structural_noop_on_failed_precondition
      (initModel [Task.mk "a" "" .Todo []])).2.2.1 none 0
      [Task.mk "a" "" .Todo []] rfl rfl (by decide)
  · exact (structural_noop_on_failed_precondition
      (initModel [Task.mk "a" "" .Todo []])).2.2.2 0 rfl
  · exact ((structural_noop_on_failed_precondition (initModel [])).1 rfl).2.2.2.2

/- ### `modifyTaskByID` lemmas -/

@[simp] theorem Task.id_withStatus (t : Task) (s : TaskStatus) :
    (t.withStatus s).id = t.id := by cases t; rfl

@[simp] theorem Task.status_withStatus (t : Task) (s : TaskStatus) :
    (t.withStatus s).status = s := by cases t; rfl

theorem Task.withStatus_self (t : Task) : t.withStatus t.status = t := by
  cases t; rfl

@[simp] theorem Task.id_withTitle (t : Task) (s : String) :
    (t.withTitle s).id = t.id := by cases t; rfl

theorem findTask_of_id {u : Task} {tid : String} (h : u.id = tid) :
    findTask tid u = some u := by
  cases u with
  | mk i ti s sub =>
    simp only [Task.id_mk] at h
    simp [findTask_mk, h]

theorem modifyTaskT_mk (tid : String) (f : Task → Task) (i t s sub) :
    modifyTaskT tid f (.mk i t s sub) =
      if i = tid then some (f (.mk i t s sub))
      else
        match modifyTaskL tid f sub with
        | some sub' => some (.mk i t s sub')
        | none => none := rfl

@[simp] theorem modifyTaskL_nil (tid : String) (f : Task → Task) :
    modifyTaskL tid f [] = none := rfl

theorem modifyTaskL_cons (tid : String) (f : Task → Task) (t ts) :
    modifyTaskL tid f (t :: ts) =
      match modifyTaskT tid f t with
      | some t' => some (t' :: ts)
      | none => (modifyTaskL tid f ts).map (t :: ·) := rfl

/-- If the id does not occur, `modifyTaskByID` finds nothing. -/
theorem modifyTaskL_none {tid : String} {f : Task → Task} : ∀ (ts : List Task),
    findForest tid ts = none → modifyTaskL tid f ts = none := by
  refine forestInduction ?_ ?_
  · intro _; rfl
  · intro i ti s sub ts ihsub ihts h
    rw [findForest_cons, findTask_mk] at h
    by_cases hid : i = tid
    · rw [if_pos hid] at h
      simp at h
    · rw [if_neg hid] at h
      cases hsub : findForest tid sub with
      | some r => rw [hsub] at h; simp at h
      | none =>
        rw [hsub] at h
        rw [modifyTaskL_cons, modifyTaskT_mk, if_neg hid, ihsub hsub, ihts h]
        rfl

/-- Rewriting the found task by a function that fixes it leaves the forest
unchanged. -/
theorem modifyTaskL_self {tid : String} {f : Task → Task} : ∀ (ts : List Task)
    (r : Task), findForest tid ts = some r → f r = r →
    modifyTaskL tid f ts = some ts := by
  refine forestInduction ?_ ?_
  · intro r h; simp at h
  · intro i ti s sub ts ihsub ihts r h hf
    rw [findForest_cons, findTask_mk] at h
    by_cases hid : i = tid
    · rw [if_pos hid] at h
      simp only [Option.some.injEq] at h
      rw [← h] at hf
      rw [modifyTaskL_cons, modifyTaskT_mk, if_pos hid, hf]
    · rw [if_neg hid] at h
      cases hsub : findForest tid sub with
      | some r₁ =>
        rw [hsub] at h
        simp only [Option.some.injEq] at h
        rw [h] at hsub
        rw [modifyTaskL_cons, modifyTaskT_mk, if_neg hid, ihsub r hsub hf]
      | none =>
        rw [hsub] at h
        rw [modifyTaskL_cons, modifyTaskT_mk, if_neg hid,
          modifyTaskL_none sub hsub, ihts r h hf]
        rfl

/-- Rewriting the found task by an id-preserving function: the first pre-order
match is replaced and is still found afterwards. -/
theorem modifyTaskL_find {tid : String} {f : Task → Task} : ∀ (ts : List Task)
    (r : Task), findForest tid ts = some r → (f r).id = r.id →
    ∃ ts', modifyTaskL tid f ts = some ts' ∧
      findForest tid ts' = some (f r) := by
  refine forestInduction ?_ ?_
  · intro r h; simp at h
  · intro i ti s sub ts ihsub ihts r h hid2
    rw [findForest_cons, findTask_mk] at h
    by_cases hid : i = tid
    · rw [if_pos hid] at h
      simp only [Option.some.injEq] at h
      refine ⟨f r :: ts, ?_, ?_⟩
      · rw [modifyTaskL_cons, modifyTaskT_mk, if_pos hid, h]
      · rw [findForest_cons,
          findTask_of_id (by rw [hid2, ← h]; simpa using hid)]
    · rw [if_neg hid] at h
      cases hsub : findForest tid sub with
      | some r₁ =>
        rw [hsub] at h
        simp only [Option.some.injEq] at h
        rw [h] at hsub
        obtain ⟨sub', hmod, hfind⟩ := ihsub r hsub hid2
        refine ⟨.mk i ti s sub' :: ts, ?_, ?_⟩
        · rw [modifyTaskL_cons, modifyTaskT_mk, if_neg hid, hmod]
        · rw [findForest_cons, findTask_mk, if_neg hid, hfind]
      | none =>
        rw [hsub] at h
        obtain ⟨ts', hmod, hfind⟩ := ihts r h hid2
        refine ⟨.mk i ti s sub :: ts', ?_, ?_⟩
        · rw [modifyTaskL_cons, modifyTaskT_mk, if_neg hid,
            modifyTaskL_none sub hsub, hmod]
          rfl
        · rw [findForest_cons, findTask_mk, if_neg hid, hsub, hfind]

@[simp] theorem takeSnapshot_tasks (m : Model) : (takeSnapshot m).tasks = m.tasks := rfl

@[simp] theorem takeSnapshot_cursorID (m : Model) :
    (takeSnapshot m).cursorID = m.cursorID := rfl

@[simp] theorem takeSnapshot_previousID (m : Model) :
    (takeSnapshot m).previousID = m.previousID := rfl

@[simp] theorem takeSnapshot_redoStack (m : Model) :
    (takeSnapshot m).redoStack = [] := rfl

@[simp] theorem takeSnapshot_maxHistorySize (m : Model) :
    (takeSnapshot m).maxHistorySize = m.maxHistorySize := rfl

@[simp] theorem modifyTaskByID_tasks (m : Model) (tid f) :
    (modifyTaskByID m tid f).tasks = (modifyTaskL tid f m.tasks).getD m.tasks := rfl

@[simp] theorem modifyTaskByID_undoStack (m : Model) (tid f) :
    (modifyTaskByID m tid f).undoStack = m.undoStack := rfl

@[simp] theorem modifyTaskByID_redoStack (m : Model) (tid f) :
    (modifyTaskByID m tid f).redoStack = m.redoStack := rfl

@[simp] theorem modifyTaskByID_cursorID (m : Model) (tid f) :
    (modifyTaskByID m tid f).cursorID = m.cursorID := rfl

@[simp] theorem modifyTaskByID_previousID (m : Model) (tid f) :
    (modifyTaskByID m tid f).previousID = m.previousID := rfl

/- ### Claim C6: status state machine -/

theorem changeTaskStatus_pos_eq (m : Model) (t : Task)
    (h : getCurrentTask m = some t) :
    changeTaskStatus m 1 =
      modifyTaskByID
        (if t.status = .Todo ∨ t.status = .Active then takeSnapshot m else m)
        m.cursorID (fun task => task.withStatus (statusForward task.status)) := by
  unfold changeTaskStatus
  rw [h]
  norm_num

theorem changeTaskStatus_neg_eq (m : Model) (t : Task)
    (h : getCurrentTask m = some t) :
    changeTaskStatus m (-1) =
      modifyTaskByID
        (if t.status = .Done ∨ t.status = .Active then takeSnapshot m else m)
        m.cursorID (fun task => task.withStatus (statusBackward task.status)) := by
  unfold changeTaskStatus
  rw [h]
  norm_num

theorem ite_model_tasks (c : Prop) [Decidable c] (m : Model) :
    (if c then takeSnapshot m else m).tasks = m.tasks := by
  by_cases hc : c
  · rw [if_pos hc]; rfl
  · rw [if_neg hc]

/-- C6: with a resolved cursor, the forward transition maps Todo to Active,
Active to Done, Done to Done, and the backward transition maps Done to Active,
Active to Todo, Todo to Todo; the boundary cases (forward on Done, backward on
Todo) change nothing at all — no snapshot; in all other cases exactly one
snapshot is pushed and the redo stack is cleared. -/
theorem changeTaskStatus_spec (m : Model) (t : Task)
    (h : getCurrentTask m = some t) :
    (statusForward .Todo = .Active ∧ statusForward .Active = .Done ∧
     statusForward .Done = .Done ∧ statusBackward .Done = .Active ∧
     statusBackward .Active = .Todo ∧ statusBackward .Todo = .Todo) ∧
    (findForest m.cursorID (changeTaskStatus m 1).tasks =
       some (t.withStatus (statusForward t.status))) ∧
    (findForest m.cursorID (changeTaskStatus m (-1)).tasks =
       some (t.withStatus (statusBackward t.status))) ∧
    (t.status = .Done → changeTaskStatus m 1 = m) ∧
    (t.status = .Todo → changeTaskStatus m (-1) = m) ∧
    (t.status ≠ .Done →
      (changeTaskStatus m 1).undoStack = (takeSnapshot m).undoStack ∧
      (changeTaskStatus m 1).redoStack = []) ∧
    (t.status ≠ .Todo →
      (changeTaskStatus m (-1)).undoStack = (takeSnapshot m).undoStack ∧
      (changeTaskStatus m (-1)).redoStack = []) := by
  have hff : findForest m.cursorID m.tasks = some t := h
  refine ⟨⟨rfl, rfl, rfl, rfl, rfl, rfl⟩, ?_, ?_, ?_, ?_, ?_, ?_⟩
  · rw [changeTaskStatus_pos_eq m t h]
    obtain ⟨ts', hmod, hfind⟩ :=
      modifyTaskL_find (f := fun task => task.withStatus (statusForward task.status))
        m.tasks t hff (by simp)
    rw [modifyTaskByID_tasks, ite_model_tasks, hmod]
    exact hfind
  · rw [changeTaskStatus_neg_eq m t h]
    obtain ⟨ts', hmod, hfind⟩ :=
      modifyTaskL_find (f := fun task => task.withStatus (statusBackward task.status))
        m.tasks t hff (by simp)
    rw [modifyTaskByID_tasks, ite_model_tasks, hmod]
    exact hfind
  · intro hst
    rw [changeTaskStatus_pos_eq m t h, if_neg (by rw [hst]; simp)]
    have hfix : t.withStatus (statusForward t.status) = t := by
      rw [hst]
      show t.withStatus TaskStatus.Done = t
      rw [← hst, Task.withStatus_self]
    unfold modifyTaskByID
    rw [modifyTaskL_self m.tasks t hff hfix]
    rfl
  · intro hst
    rw [changeTaskStatus_neg_eq m t h, if_neg (by rw [hst]; simp)]
    have hfix : t.withStatus (statusBackward t.status) = t := by
      rw [hst]
      show t.withStatus TaskStatus.Todo = t
      rw [← hst, Task.withStatus_self]
    unfold modifyTaskByID
    rw [modifyTaskL_self m.tasks t hff hfix]
    rfl
  · intro hst
    have hw : t.status = TaskStatus.Todo ∨ t.status = TaskStatus.Active := by
      cases hcase : t.status
      · exact Or.inl rfl
      · exact Or.inr rfl
      · exact absurd hcase hst
    rw [changeTaskStatus_pos_eq m t h, if_pos hw]
    exact ⟨rfl, rfl⟩
  · intro hst
    have hw : t.status = TaskStatus.Done ∨ t.status = TaskStatus.Active := by
      cases hcase : t.status
      · exact absurd hcase hst
      · exact Or.inr rfl
      · exact Or.inl rfl
    rw [changeTaskStatus_neg_eq m t h, if_pos hw]
    exact ⟨rfl, rfl⟩

/-- Witness for C6: a singleton Active task. -/
theorem changeTaskStatus_spec_witness :
    findForest "a" (changeTaskStatus (initModel [Task.mk "a" "" .Active []]) 1).tasks =
      some (Task.mk "a" "" .Done []) :=
  (changeTaskStatus_spec (initModel [Task.mk "a" "" .Active []])
    (Task.mk "a" "" .Active []) rfl).2.1

/- ### Claim C7: the pre-order id sequence -/

@[simp] theorem sizeT_mk (i t s sub) : sizeT (.mk i t s sub) = 1 + sizeF sub := rfl

@[simp] theorem sizeF_nil : sizeF [] = 0 := rfl

@[simp] theorem sizeF_cons (t ts) : sizeF (t :: ts) = sizeT t + sizeF ts := rfl

theorem sizeT_pos (t : Task) : 1 ≤ sizeT t := by
  cases t; simp

theorem sizeT_eq (t : Task) : sizeT t = 1 + sizeF t.subtasks := by
  cases t; rfl

theorem length_forestIdList : ∀ ts : List Task,
    (forestIdList ts).length = sizeF ts := by
  refine forestInduction ?_ ?_
  · rfl
  · intro i ti s sub ts ihsub ihts
    simp [ihsub, ihts]
    omega

theorem idMulT_mk (i t s sub) : idMulT (.mk i t s sub) = i ::ₘ idMulF sub := rfl

@[simp] theorem idMulF_nil : idMulF [] = 0 := rfl

@[simp] theorem idMulF_cons (t ts) : idMulF (t :: ts) = idMulT t + idMulF ts := rfl

/-- The pre-order id sequence contains the id of every task exactly once. -/
theorem forestIdList_coe_eq_idMulF : ∀ ts : List Task,
    (forestIdList ts : Multiset String) = idMulF ts := by
  refine forestInduction ?_ ?_
  · rfl
  · intro i ti s sub ts ihsub ihts
    simp only [forestIdList_cons, taskIdList_mk, idMulF_cons, idMulT_mk,
      List.cons_append]
    rw [← Multiset.cons_coe, ← Multiset.coe_add] at *
    rw [Multiset.coe_add] at *
    simp [← ihsub, ← ihts, Multiset.cons_coe]

theorem preIdx_nil (ts : List Task) : preIdx [] ts = 0 := rfl

theorem preIdx_single (i : Nat) (ts : List Task) :
    preIdx [i] ts = sizeF (ts.take i) := rfl

theorem preIdx_cons_cons (i b : Nat) (q : List Nat) (ts : List Task) :
    preIdx (i :: b :: q) ts =
      sizeF (ts.take i) +
        match ts[i]? with
        | none => 0
        | some t => 1 + preIdx (b :: q) t.subtasks := rfl

theorem preIdx_cons_cons_some {i : Nat} {ts : List Task} {x : Task}
    (hx : ts[i]? = some x) (b : Nat) (q : List Nat) :
    preIdx (i :: b :: q) ts =
      sizeF (ts.take i) + (1 + preIdx (b :: q) x.subtasks) := by
  rw [preIdx_cons_cons, hx]

theorem getElem?_append_len {α : Type} (A B : List α) :
    (A ++ B)[A.length]? = B[0]? := by
  induction A with
  | nil => rfl
  | cons a As ih => simpa using ih

theorem getElem?_append_add {α : Type} (A B : List α) (k : Nat) :
    (A ++ B)[A.length + k]? = B[k]? := by
  induction A with
  | nil => simp
  | cons a As ih =>
    have : (a :: As).length + k = (As.length + k) + 1 := by simp; omega
    rw [this]
    simpa using ih

theorem getElem?_append_lt {α : Type} (A B : List α) (k : Nat)
    (h : k < A.length) : (A ++ B)[k]? = A[k]? := by
  induction A generalizing k with
  | nil => simp at h
  | cons a As ih =>
    cases k with
    | zero => simp
    | succ k => simpa using ih k (by simpa using h)

/-- The task at a path sits at position `preIdx` of the pre-order sequence. -/
theorem preIdx_correct : ∀ (p : List Nat) (ts : List Task) (t : Task),
    taskAt p ts = some t → (forestIdList ts)[preIdx p ts]? = some t.id := by
  intro p
  induction p with
  | nil => intro ts t hp; simp at hp
  | cons i p' ih =>
    intro ts t hp
    rw [taskAt_cons_ne_nil] at hp
    cases hx : ts[i]? with
    | none => rw [hx] at hp; exact absurd hp (by simp)
    | some x =>
      rw [hx] at hp
      obtain ⟨A, B, hts, hlen⟩ := exists_decomp hx
      subst hts
      cases p' with
      | nil =>
        simp only [Option.some.injEq] at hp
        subst hp
        rw [preIdx_single, ← hlen, List.take_left]
        rw [forestIdList_append, forestIdList_cons]
        have hLA : sizeF A = (forestIdList A).length := (length_forestIdList A).symm
        rw [hLA, getElem?_append_len, taskIdList_eq]
        simp
      | cons b q =>
        have hrec := ih x.subtasks t hp
        rw [preIdx_cons_cons]
        simp only [hx]
        rw [← hlen, List.take_left]
        rw [forestIdList_append, forestIdList_cons, taskIdList_eq]
        have hLA : sizeF A = (forestIdList A).length := (length_forestIdList A).symm
        rw [hLA, getElem?_append_add]
        have hcons : ((x.id :: forestIdList x.subtasks) ++ forestIdList B
            : List String) = x.id :: (forestIdList x.subtasks ++ forestIdList B) := by
          simp
        rw [hcons]
        have h1 : 1 + preIdx (b :: q) x.subtasks =
            preIdx (b :: q) x.subtasks + 1 := by omega
        rw [h1, List.getElem?_cons_succ]
        have hk : preIdx (b :: q) x.subtasks < (forestIdList x.subtasks).length := by
          by_contra hge
          rw [List.getElem?_eq_none (by omega)] at hrec
          exact absurd hrec (by simp)
        rw [getElem?_append_lt _ _ _ hk]
        exact hrec

/-- A task at a path comes strictly before every task at a proper extension of
that path (parent before descendant). -/
theorem preIdx_lt_of_extend : ∀ (p : List Nat) (ts : List Task) (t u : Task)
    (q : List Nat), taskAt p ts = some t → q ≠ [] →
    taskAt (p ++ q) ts = some u → preIdx p ts < preIdx (p ++ q) ts := by
  intro p
  induction p with
  | nil => intro ts t u q hp; simp at hp
  | cons i p' ih =>
    intro ts t u q hp hq hpq
    rw [taskAt_cons_ne_nil] at hp
    cases hx : ts[i]? with
    | none => rw [hx] at hp; exact absurd hp (by simp)
    | some x =>
      rw [hx] at hp
      cases p' with
      | nil =>
        cases q with
        | nil => exact absurd rfl hq
        | cons b q' =>
          rw [preIdx_single]
          have heq : (([i] : List Nat) ++ b :: q') = i :: b :: q' := rfl
          rw [heq, preIdx_cons_cons_some hx b q']
          omega
      | cons c p'' =>
        have hp' : taskAt (c :: p'') x.subtasks = some t := hp
        simp only [List.cons_append] at hpq ⊢
        rw [taskAt_cons_of_getElem hx] at hpq
        rw [preIdx_cons_cons_some hx c p'', preIdx_cons_cons_some hx c (p'' ++ q)]
        have hih := ih x.subtasks t u q hp' hq
          (by simp only [List.cons_append]; exact hpq)
        simp only [List.cons_append] at hih
        omega

theorem sizeF_take_lt : ∀ (ts : List Task) (i j : Nat) (tj : Task), i < j →
    ts[j]? = some tj → sizeF (ts.take i) < sizeF (ts.take j) := by
  intro ts
  induction ts with
  | nil => intro i j tj _ hj; simp at hj
  | cons x ts' ih =>
    intro i j tj hij hj
    cases j with
    | zero => omega
    | succ j' =>
      simp only [List.getElem?_cons_succ] at hj
      cases i with
      | zero =>
        simp only [List.take_zero, sizeF_nil, List.take_succ_cons, sizeF_cons]
        have h1 := sizeT_pos x
        omega
      | succ i' =>
        simp only [List.take_succ_cons, sizeF_cons]
        have := ih i' j' tj (by omega) hj
        omega

/-- `preIdx` of a child path in terms of the parent. -/
theorem preIdx_append_singleton : ∀ (p : List Nat) (ts : List Task) (par : Task),
    taskAt p ts = some par → ∀ i : Nat,
    preIdx (p ++ [i]) ts = preIdx p ts + 1 + sizeF (par.subtasks.take i) := by
  intro p
  induction p with
  | nil => intro ts par hp; simp at hp
  | cons a p' ih =>
    intro ts par hp i
    rw [taskAt_cons_ne_nil] at hp
    cases hx : ts[a]? with
    | none => rw [hx] at hp; exact absurd hp (by simp)
    | some x =>
      rw [hx] at hp
      cases p' with
      | nil =>
        simp only [Option.some.injEq] at hp
        subst hp
        have h1 : (([a] : List Nat) ++ [i]) = a :: i :: [] := rfl
        rw [h1, preIdx_cons_cons_some hx i [], preIdx_single, preIdx_single]
        omega
      | cons b q =>
        simp only [List.cons_append]
        rw [preIdx_cons_cons_some hx b (q ++ [i]), preIdx_cons_cons_some hx b q]
        have happ := ih x.subtasks par hp i
        simp only [List.cons_append] at happ
        rw [happ]
        omega

/-- Siblings appear in stored order in the pre-order sequence. -/
theorem preIdx_sibling_lt {ts : List Task} {c : Option (List Nat)}
    {C : List Task} {i j : Nat} {tj : Task}
    (hc : containerAt ts c = some C) (hj : C[j]? = some tj) (hij : i < j) :
    preIdx (elemPath c i) ts < preIdx (elemPath c j) ts := by
  cases c with
  | none =>
    simp only [containerAt, Option.some.injEq] at hc
    subst hc
    show preIdx [i] ts < preIdx [j] ts
    rw [preIdx_single, preIdx_single]
    exact sizeF_take_lt ts i j tj hij hj
  | some p =>
    simp only [containerAt, Option.map_eq_some'] at hc
    obtain ⟨par, hpar, hsub⟩ := hc
    subst hsub
    show preIdx (p ++ [i]) ts < preIdx (p ++ [j]) ts
    rw [preIdx_append_singleton p ts par hpar i,
      preIdx_append_singleton p ts par hpar j]
    have := sizeF_take_lt par.subtasks i j tj hij hj
    omega

/-- C7: the pre-order id sequence `getAllTaskIDs` contains the id of every
task exactly once (as a multiset each task contributes one element), lists a
parent strictly before each of its descendants, lists siblings in stored
order, and is stable across repeated calls. -/
theorem getAllTaskIDs_spec (m : Model) :
    ((getAllTaskIDs m : Multiset String) = idMulF m.tasks) ∧
    (∀ p q t u, taskAt p m.tasks = some t → q ≠ [] →
      taskAt (p ++ q) m.tasks = some u →
      (getAllTaskIDs m)[preIdx p m.tasks]? = some t.id ∧
      (getAllTaskIDs m)[preIdx (p ++ q) m.tasks]? = some u.id ∧
      preIdx p m.tasks < preIdx (p ++ q) m.tasks) ∧
    (∀ c C i j ti tj, containerAt m.tasks c = some C →
      C[i]? = some ti → C[j]? = some tj → i < j →
      preIdx (elemPath c i) m.tasks < preIdx (elemPath c j) m.tasks) ∧
    (getAllTaskIDs m = getAllTaskIDs m) := by
  refine ⟨forestIdList_coe_eq_idMulF m.tasks, ?_, ?_, rfl⟩
  · intro p q t u hp hq hpq
    exact ⟨preIdx_correct p m.tasks t hp, preIdx_correct (p ++ q) m.tasks u hpq,
      preIdx_lt_of_extend p m.tasks t u q hp hq hpq⟩
  · intro c C i j ti tj hc hi hj hij
    exact preIdx_sibling_lt hc hj hij

/-- Witness for C7 on a two-root forest with one nested subtask. -/
theorem getAllTaskIDs_spec_witness :
    ((getAllTaskIDs (initModel [Task.mk "a" "" .Todo [Task.mk "b" "" .Todo []],
        Task.mk "c" "" .Todo []]) : Multiset String) =
      idMulF [Task.mk "a" "" .Todo [Task.mk "b" "" .Todo []],
        Task.mk "c" "" .Todo []]) ∧
    preIdx [0] [Task.mk "a" "" .Todo [Task.mk "b" "" .Todo []],
        Task.mk "c" "" .Todo []] <
      preIdx [0, 0] [Task.mk "a" "" .Todo [Task.mk "b" "" .Todo []],
        Task.mk "c" "" .Todo []] := by
  refine ⟨(getAllTaskIDs_spec _).1, ?_⟩
  have h := ((getAllTaskIDs_spec (initModel
    [Task.mk "a" "" .Todo [Task.mk "b" "" .Todo []],
     Task.mk "c" "" .Todo []])).2.1 [0] [0]
    (Task.mk "a" "" .Todo [Task.mk "b" "" .Todo []])
    (Task.mk "b" "" .Todo []) rfl (by simp) rfl).2.2
  exact h

/- ### Claim C5: bounded history stacks -/

theorem takeSnapshot_undoStack (m : Model) :
    (takeSnapshot m).undoStack =
      if m.maxHistorySize < m.undoStack.length + 1
      then (m.undoStack ++ [currentSnapshot m]).tail
      else m.undoStack ++ [currentSnapshot m] := by
  unfold takeSnapshot
  simp [List.length_append]

theorem takeSnapshot_undoStack_le {m : Model}
    (h : m.undoStack.length ≤ m.maxHistorySize) :
    (takeSnapshot m).undoStack.length ≤ m.maxHistorySize := by
  rw [takeSnapshot_undoStack]
  by_cases hc : m.maxHistorySize < m.undoStack.length + 1
  · rw [if_pos hc]
    simp only [List.length_tail, List.length_append, List.length_singleton]
    omega
  · rw [if_neg hc]
    simp only [List.length_append, List.length_singleton]
    omega

theorem shape_refl (m : Model) : ShapeOK m m := ⟨rfl, Or.inl ⟨rfl, rfl⟩⟩

theorem shape_snap (m : Model) {m' : Model}
    (h1 : m'.maxHistorySize = m.maxHistorySize)
    (h2 : m'.undoStack = (takeSnapshot m).undoStack)
    (h3 : m'.redoStack = []) : ShapeOK m m' := ⟨h1, Or.inr ⟨h2, h3⟩⟩

theorem shape_inv {m m' : Model} (hs : ShapeOK m m') (h : Inv m) : Inv m' := by
  obtain ⟨hmax, hcase⟩ := hs
  obtain ⟨h1, h2⟩ := h
  rcases hcase with ⟨hu, hr⟩ | ⟨hu, hr⟩
  · exact ⟨by rw [hu, hmax]; exact h1, by rw [hr, hmax]; exact h2⟩
  · constructor
    · rw [hu, hmax]
      exact takeSnapshot_undoStack_le h1
    · rw [hr, hmax]
      simp

theorem updateCursorAfterDeletion_undoStack (m : Model) :
    (updateCursorAfterDeletion m).undoStack = m.undoStack := by
  unfold updateCursorAfterDeletion
  split <;> rfl

theorem updateCursorAfterDeletion_redoStack (m : Model) :
    (updateCursorAfterDeletion m).redoStack = m.redoStack := by
  unfold updateCursorAfterDeletion
  split <;> rfl

theorem updateCursorAfterDeletion_maxHistorySize (m : Model) :
    (updateCursorAfterDeletion m).maxHistorySize = m.maxHistorySize := by
  unfold updateCursorAfterDeletion
  split <;> rfl

theorem moveTaskUp_shape (m : Model) : ShapeOK m (moveTaskUp m) := by
  unfold moveTaskUp
  split
  · exact shape_refl m
  · split
    · exact shape_refl m
    · exact shape_snap m rfl rfl rfl

theorem moveTaskDown_shape (m : Model) : ShapeOK m (moveTaskDown m) := by
  unfold moveTaskDown
  split
  · exact shape_refl m
  · split
    · exact shape_refl m
    · split
      · exact shape_refl m
      · exact shape_snap m rfl rfl rfl

theorem indentTask_shape (m : Model) : ShapeOK m (indentTask m) := by
  unfold indentTask
  split
  · exact shape_refl m
  · split
    · exact shape_refl m
    · exact shape_snap m rfl rfl rfl

theorem unindentTask_shape (m : Model) : ShapeOK m (unindentTask m) := by
  unfold unindentTask
  split
  · exact shape_refl m
  · exact shape_refl m
  · dsimp only
    split
    · exact shape_snap m rfl rfl rfl
    · split
      · exact shape_snap m rfl rfl rfl
      · split
        · exact shape_snap m rfl rfl rfl
        · exact shape_snap m rfl rfl rfl

theorem deleteCurrentTask_shape (m : Model) : ShapeOK m (deleteCurrentTask m) := by
  unfold deleteCurrentTask
  split
  · exact shape_refl m
  · exact shape_snap m
      (updateCursorAfterDeletion_maxHistorySize _)
      (updateCursorAfterDeletion_undoStack _)
      (updateCursorAfterDeletion_redoStack _)

theorem changeTaskStatus_shape (m : Model) (d : Int) :
    ShapeOK m (changeTaskStatus m d) := by
  unfold changeTaskStatus
  split
  · exact shape_refl m
  · dsimp only
    split
    · split
      · exact shape_snap m rfl rfl rfl
      · exact ⟨rfl, Or.inl ⟨rfl, rfl⟩⟩
    · split
      · exact shape_snap m rfl rfl rfl
      · exact ⟨rfl, Or.inl ⟨rfl, rfl⟩⟩

theorem createTask_shape (m : Model) (b : Bool) (nid : String) :
    ShapeOK m (createTask m b nid).1 := by
  unfold createTask
  dsimp only
  split
  · exact shape_snap m rfl rfl rfl
  · split
    · split
      · exact shape_snap m rfl rfl rfl
      · exact shape_snap m rfl rfl rfl
    · split
      · exact shape_snap m rfl rfl rfl
      · exact shape_snap m rfl rfl rfl

theorem createNewTaskInParent_shape (m : Model) (nid : String) :
    ShapeOK m (createNewTaskInParent m nid).1 := by
  unfold createNewTaskInParent
  dsimp only
  split
  · exact shape_snap m rfl rfl rfl
  · split
    · exact shape_snap m rfl rfl rfl
    · exact shape_snap m rfl rfl rfl
    · split
      · exact shape_snap m rfl rfl rfl
      · split
        · exact shape_snap m rfl rfl rfl
        · exact shape_snap m rfl rfl rfl

theorem editTaskTitle_shape (m : Model) (tid text : String) :
    ShapeOK m (editTaskTitle m tid text) := by
  unfold editTaskTitle
  dsimp only
  split
  · split
    · exact shape_snap m rfl rfl rfl
    · exact ⟨rfl, Or.inl ⟨rfl, rfl⟩⟩
  · exact ⟨rfl, Or.inl ⟨rfl, rfl⟩⟩

theorem cancelEditKey_shape (m : Model) : ShapeOK m (cancelEditKey m) := by
  unfold cancelEditKey
  split
  · split
    · exact deleteCurrentTask_shape m
    · exact shape_refl m
  · exact shape_refl m

theorem navKey_shape (m : Model) (d : Int) : ShapeOK m (navKey m d) :=
  shape_refl m

theorem undo_inv {m : Model} (h : Inv m) :
    Inv (undo m) ∧ (undo m).maxHistorySize = m.maxHistorySize := by
  obtain ⟨h1, h2⟩ := h
  unfold undo
  split
  · exact ⟨⟨h1, h2⟩, rfl⟩
  · refine ⟨⟨?_, ?_⟩, rfl⟩
    · simp only [List.length_dropLast]
      omega
    · show (if m.maxHistorySize < (m.redoStack ++ [currentSnapshot m]).length
        then (m.redoStack ++ [currentSnapshot m]).tail
        else m.redoStack ++ [currentSnapshot m]).length ≤ m.maxHistorySize
      by_cases hc : m.maxHistorySize < (m.redoStack ++ [currentSnapshot m]).length
      · rw [if_pos hc]
        simp only [List.length_tail, List.length_append, List.length_singleton]
        omega
      · rw [if_neg hc]
        simp only [List.length_append, List.length_singleton] at hc ⊢
        omega

theorem redo_inv {m : Model} (h : Inv m) :
    Inv (redo m) ∧ (redo m).maxHistorySize = m.maxHistorySize := by
  obtain ⟨h1, h2⟩ := h
  unfold redo
  split
  · exact ⟨⟨h1, h2⟩, rfl⟩
  · refine ⟨⟨?_, ?_⟩, rfl⟩
    · show (if m.maxHistorySize < (m.undoStack ++ [currentSnapshot m]).length
        then (m.undoStack ++ [currentSnapshot m]).tail
        else m.undoStack ++ [currentSnapshot m]).length ≤ m.maxHistorySize
      by_cases hc : m.maxHistorySize < (m.undoStack ++ [currentSnapshot m]).length
      · rw [if_pos hc]
        simp only [List.length_tail, List.length_append, List.length_singleton]
        omega
      · rw [if_neg hc]
        simp only [List.length_append, List.length_singleton] at hc ⊢
        omega
    · simp only [List.length_dropLast]
      omega

theorem setPrev_inv (m : Model) :
    Inv { m with previousID := m.cursorID } ↔ Inv m := Iff.rfl

theorem newTaskKey_inv {create : Model → String → Model × String}
    (hcreate : ∀ m nid, ShapeOK m (create m nid).1)
    (m : Model) (nid : String) (h : Inv m)
    (hmax : m.maxHistorySize = 50) :
    Inv (newTaskKey create m nid) ∧
      (newTaskKey create m nid).maxHistorySize = 50 := by
  unfold newTaskKey
  have h1 : Inv { m with previousID := m.cursorID } := h
  have hs := hcreate { m with previousID := m.cursorID } nid
  have h2 := shape_inv hs h1
  have h3 : (create { m with previousID := m.cursorID } nid).1.maxHistorySize = 50 :=
    hs.1.trans hmax
  dsimp only
  split
  · exact ⟨h2, h3⟩
  · exact ⟨h2, h3⟩

theorem pasteKey_inv (asSubtask : Bool) (m : Model) (nid text : String)
    (h : Inv m) (hmax : m.maxHistorySize = 50) :
    Inv (pasteKey asSubtask m nid text) ∧
      (pasteKey asSubtask m nid text).maxHistorySize = 50 := by
  have h1 : Inv { m with previousID := m.cursorID } := h
  have hmax1 : Model.maxHistorySize { m with previousID := m.cursorID } = 50 := hmax
  unfold pasteKey
  dsimp only
  split
  · split
    · exact ⟨shape_inv (editTaskTitle_shape _ _ text)
        (shape_inv (createTask_shape _ true nid) h1),
        (editTaskTitle_shape _ _ text).1.trans
          ((createTask_shape _ true nid).1.trans hmax1)⟩
    · exact ⟨shape_inv (createTask_shape _ true nid) h1,
        (createTask_shape _ true nid).1.trans hmax1⟩
  · split
    · exact ⟨shape_inv (editTaskTitle_shape _ _ text)
        (shape_inv (createTask_shape _ false nid) h1),
        (editTaskTitle_shape _ _ text).1.trans
          ((createTask_shape _ false nid).1.trans hmax1)⟩
    · exact ⟨shape_inv (createTask_shape _ false nid) h1,
        (createTask_shape _ false nid).1.trans hmax1⟩

/-- C5: in every reachable state both history stacks hold at most 50
snapshots; `takeSnapshot` always clears the redo stack; a push at the cap
evicts the oldest entry, a push below the cap evicts nothing. -/
theorem history_bounded_spec :
    (∀ m, Reach m → m.undoStack.length ≤ 50 ∧ m.redoStack.length ≤ 50) ∧
    (∀ m : Model, (takeSnapshot m).redoStack = []) ∧
    (∀ m : Model, m.undoStack.length = m.maxHistorySize →
      (takeSnapshot m).undoStack = (m.undoStack ++ [currentSnapshot m]).tail) ∧
    (∀ m : Model, m.undoStack.length < m.maxHistorySize →
      (takeSnapshot m).undoStack = m.undoStack ++ [currentSnapshot m]) := by
  refine ⟨?_, fun m => rfl, ?_, ?_⟩
  · have main : ∀ m, Reach m → m.maxHistorySize = 50 ∧ Inv m := by
      intro m hm
      induction hm with
      | init tasks => exact ⟨rfl, by simp [Inv, initModel]⟩
      | nav d hr ih =>
        obtain ⟨hmax, hinv⟩ := ih
        exact ⟨(navKey_shape _ d).1.trans hmax, shape_inv (navKey_shape _ d) hinv⟩
      | status d hr ih =>
        obtain ⟨hmax, hinv⟩ := ih
        exact ⟨(changeTaskStatus_shape _ d).1.trans hmax,
          shape_inv (changeTaskStatus_shape _ d) hinv⟩
      | moveUp hr ih =>
        obtain ⟨hmax, hinv⟩ := ih
        exact ⟨(moveTaskUp_shape _).1.trans hmax,
          shape_inv (moveTaskUp_shape _) hinv⟩
      | moveDown hr ih =>
        obtain ⟨hmax, hinv⟩ := ih
        exact ⟨(moveTaskDown_shape _).1.trans hmax,
          shape_inv (moveTaskDown_shape _) hinv⟩
      | unindent hr ih =>
        obtain ⟨hmax, hinv⟩ := ih
        exact ⟨(unindentTask_shape _).1.trans hmax,
          shape_inv (unindentTask_shape _) hinv⟩
      | indent hr ih =>
        obtain ⟨hmax, hinv⟩ := ih
        exact ⟨(indentTask_shape _).1.trans hmax,
          shape_inv (indentTask_shape _) hinv⟩
      | newBelow nid hr ih =>
        obtain ⟨hmax, hinv⟩ := ih
        have := newTaskKey_inv (fun m nid => createTask_shape m false nid)
          _ nid hinv hmax
        exact ⟨this.2, this.1⟩
      | newSubtask nid hr ih =>
        obtain ⟨hmax, hinv⟩ := ih
        have := newTaskKey_inv (fun m nid => createTask_shape m true nid)
          _ nid hinv hmax
        exact ⟨this.2, this.1⟩
      | newInParent nid hr ih =>
        obtain ⟨hmax, hinv⟩ := ih
        have := newTaskKey_inv (fun m nid => createNewTaskInParent_shape m nid)
          _ nid hinv hmax
        exact ⟨this.2, this.1⟩
      | undoK hr ih =>
        obtain ⟨hmax, hinv⟩ := ih
        have := undo_inv hinv
        exact ⟨this.2.trans hmax, this.1⟩
      | redoK hr ih =>
        obtain ⟨hmax, hinv⟩ := ih
        have := redo_inv hinv
        exact ⟨this.2.trans hmax, this.1⟩
      | commitEdit text hr ih =>
        obtain ⟨hmax, hinv⟩ := ih
        exact ⟨(editTaskTitle_shape _ _ text).1.trans hmax,
          shape_inv (editTaskTitle_shape _ _ text) hinv⟩
      | cancelEdit hr ih =>
        obtain ⟨hmax, hinv⟩ := ih
        exact ⟨(cancelEditKey_shape _).1.trans hmax,
          shape_inv (cancelEditKey_shape _) hinv⟩
      | paste b nid text hr ih =>
        obtain ⟨hmax, hinv⟩ := ih
        have := pasteKey_inv b _ nid text hinv hmax
        exact ⟨this.2, this.1⟩
    intro m hm
    obtain ⟨hmax, h1, h2⟩ := main m hm
    exact ⟨by omega, by omega⟩
  · intro m hlen
    rw [takeSnapshot_undoStack, if_pos (by omega)]
  · intro m hlen
    rw [takeSnapshot_undoStack, if_neg (by omega)]

/-- Witness for C5 at a freshly initialised model. -/
theorem history_bounded_spec_witness :
    (initModel [Task.mk "a" "" .Todo []]).undoStack.length ≤ 50 ∧
    (initModel [Task.mk "a" "" .Todo []]).redoStack.length ≤ 50 :=
  history_bounded_spec.1 (initModel [Task.mk "a" "" .Todo []])
    (Reach.init [Task.mk "a" "" .Todo []])

/- ### Claim C8: creating a sibling task -/

theorem cursorID_mem_of_resolve {m : Model} {t : Task}
    (h : findForest m.cursorID m.tasks = some t) :
    m.cursorID ∈ forestIdList m.tasks :=
  (findForest_isSome_iff m.tasks).mp (by simp [h])

/-- C8: `createNewTaskBelow` returns the generated id and inserts a fresh
task with empty title and status Todo immediately after the cursor's task in
that task's container (other siblings keep their relative order); when the
forest is empty or the cursor does not resolve the new task is appended as
the last root-level task. -/
theorem createNewTaskBelow_spec (m : Model) (newId : String)
    (h0 : "" ∉ forestIdList m.tasks) :
    ((createNewTaskBelow m newId).2 = newId) ∧
    (∀ t, findForest m.cursorID m.tasks = some t →
      ∀ c k, findParent m.tasks m.cursorID = some (c, k) →
      ∃ C₁ C₂ tcur, containerAt m.tasks c = some (C₁ ++ tcur :: C₂) ∧
        C₁.length = k ∧ tcur.id = m.cursorID ∧
        containerAt (createNewTaskBelow m newId).1.tasks c =
          some (C₁ ++ tcur :: Task.mk newId "" .Todo [] :: C₂)) ∧
    ((m.tasks = [] ∨ findForest m.cursorID m.tasks = none) →
      (createNewTaskBelow m newId).1.tasks =
        m.tasks ++ [Task.mk newId "" .Todo []]) := by
  refine ⟨?_, ?_, ?_⟩
  · unfold createNewTaskBelow createTask
    dsimp only
    split
    · rfl
    · split
      · split <;> rfl
      · split <;> rfl
  · intro t ht c k hfp
    have hmem : m.cursorID ∈ forestIdList m.tasks := cursorID_mem_of_resolve ht
    have hne : m.cursorID ≠ "" := fun he => h0 (he ▸ hmem)
    have hnonempty : ¬ (m.tasks.length = 0 ∨ m.cursorID = "") := by
      rintro (hlen | hcur)
      · rw [List.length_eq_zero] at hlen
        rw [hlen] at hmem
        simp at hmem
      · exact hne hcur
    obtain ⟨cont, tcur, hcont, hk, hid⟩ := findParent_sound hfp
    obtain ⟨C₁, C₂, hdecomp, hlen⟩ := exists_decomp hk
    subst hdecomp
    refine ⟨C₁, C₂, tcur, hcont, hlen, hid, ?_⟩
    have htasks : (createNewTaskBelow m newId).1.tasks =
        containerModify m.tasks c
          (fun l => insertTaskInSlice l (k + 1) (NewTask newId "" .Todo)) := by
      unfold createNewTaskBelow createTask
      dsimp only
      rw [if_neg (show ¬ ((takeSnapshot m).tasks.length = 0 ∨
        (takeSnapshot m).cursorID = "") from hnonempty)]
      rw [if_neg (show ¬ (false = true) from by simp)]
      have hfp1 : findParent (takeSnapshot m).tasks (takeSnapshot m).cursorID =
          some (c, k) := hfp
      rw [hfp1]
      rfl
    rw [htasks,
      containerAt_containerModify_self hcont
        (fun l => insertTaskInSlice l (k + 1) (NewTask newId "" .Todo))]
    have hins : insertTaskInSlice (C₁ ++ tcur :: C₂) (k + 1) (NewTask newId "" .Todo) =
        C₁ ++ tcur :: Task.mk newId "" .Todo [] :: C₂ := by
      have h1 : C₁ ++ tcur :: C₂ = (C₁ ++ [tcur]) ++ C₂ := by simp
      have h2 : k + 1 = (C₁ ++ [tcur]).length := by simp [hlen]
      rw [h1, h2, insertTaskInSlice_append]
      simp [NewTask]
    rw [hins]
  · intro hcase
    unfold createNewTaskBelow createTask
    dsimp only
    by_cases hfirst : m.tasks.length = 0 ∨ m.cursorID = ""
    · rw [if_pos (show (takeSnapshot m).tasks.length = 0 ∨
        (takeSnapshot m).cursorID = "" from hfirst)]
      simp [NewTask]
    · rw [if_neg (show ¬ ((takeSnapshot m).tasks.length = 0 ∨
        (takeSnapshot m).cursorID = "") from hfirst)]
      rw [if_neg (show ¬ (false = true) from by simp)]
      rcases hcase with hnil | hnone
      · exact absurd (Or.inl (by simp [hnil])) hfirst
      · have hfpn : findParent m.tasks m.cursorID = none := by
          have h1 : ¬ (findForest m.cursorID m.tasks).isSome := by simp [hnone]
          have h2 : ¬ (findParent m.tasks m.cursorID).isSome := fun hs =>
            h1 (resolve_iff_findParent.mpr hs)
          simpa using (Option.not_isSome_iff_eq_none.mp h2)
        have hfp1 : findParent (takeSnapshot m).tasks (takeSnapshot m).cursorID =
            none := hfpn
        rw [hfp1]
        simp [NewTask]

/-- Witness for C8: insertion after the cursor in a two-task root container
and appending to the empty forest. -/
theorem createNewTaskBelow_spec_witness :
    (∃ C₁ C₂ tcur,
      containerAt (initModel [Task.mk "a" "" .Todo [], Task.mk "b" "" .Todo []]).tasks
        none = some (C₁ ++ tcur :: C₂) ∧
      C₁.length = 0 ∧ tcur.id = "a" ∧
      containerAt (createNewTaskBelow
        (initModel [Task.mk "a" "" .Todo [], Task.mk "b" "" .Todo []]) "n").1.tasks
        none = some (C₁ ++ tcur :: Task.mk "n" "" .Todo [] :: C₂)) ∧
    (createNewTaskBelow (initModel []) "n").1.tasks = [Task.mk "n" "" .Todo []] := by
  constructor
  · exact (createNewTaskBelow_spec
      (initModel [Task.mk "a" "" .Todo [], Task.mk "b" "" .Todo []]) "n"
      (by decide)).2.1 (Task.mk "a" "" .Todo []) rfl none 0 rfl
  · exact (createNewTaskBelow_spec (initModel []) "n" (by decide)).2.2
      (Or.inl rfl)

/- ### Claim C4: cursor re-pointing after deletion -/

theorem updateCursorAfterDeletion_previousID (m : Model) :
    (updateCursorAfterDeletion m).previousID = "" := by
  unfold updateCursorAfterDeletion
  split <;> rfl

theorem updateCursorAfterDeletion_tasks (m : Model) :
    (updateCursorAfterDeletion m).tasks = m.tasks := by
  unfold updateCursorAfterDeletion
  split <;> rfl

theorem mem_ids_of_erase {ts : List Task} {c : Option (List Nat)}
    {C : List Task} {index : Nat} {x : Task}
    (hc : containerAt ts c = some C) (hx : C[index]? = some x) :
    ∀ a, a ∈ forestIdList
        (containerModify ts c (fun l => removeTaskFromSlice l index)) →
      a ∈ forestIdList ts := by
  obtain ⟨A, B, hEq, hMod⟩ :=
    labelForest_container_ctx (fun x c => Task.id_withSubtasks x c) hc
  intro a ha
  rw [forestIdList_eq_label] at ha ⊢
  rw [hMod (fun l => removeTaskFromSlice l index)] at ha
  rw [hEq]
  obtain ⟨C₁, C₂, hdecomp, hlen⟩ := exists_decomp hx
  subst hdecomp
  rw [← hlen, removeTaskFromSlice_append] at ha
  simp only [labelForest_append, labelForest_cons, List.mem_append] at ha ⊢
  tauto

/-- C4: after `deleteCurrentTask` removes the resolved cursor task, the
previous id is always cleared; the cursor becomes the stored previous id when
that id still resolves in the mutated forest, otherwise the first pre-order id
of the mutated forest, otherwise (forest now empty) the empty id — so the
cursor is never a dangling reference. -/
theorem deleteCurrentTask_spec (m : Model)
    (h0 : "" ∉ forestIdList m.tasks)
    (t : Task) (h : getCurrentTask m = some t) :
    (deleteCurrentTask m).previousID = "" ∧
    ((findForest m.previousID (deleteCurrentTask m).tasks).isSome →
      (deleteCurrentTask m).cursorID = m.previousID) ∧
    (¬ (findForest m.previousID (deleteCurrentTask m).tasks).isSome →
      (deleteCurrentTask m).cursorID =
        (forestIdList (deleteCurrentTask m).tasks).headD "") ∧
    ((deleteCurrentTask m).cursorID ∈ forestIdList (deleteCurrentTask m).tasks ∨
      ((deleteCurrentTask m).cursorID = "" ∧ (deleteCurrentTask m).tasks = [])) := by
  have hmem : m.cursorID ∈ forestIdList m.tasks := cursorID_mem_of_resolve h
  have hfps : (findParent m.tasks m.cursorID).isSome :=
    resolve_iff_findParent.mp (by simp [getCurrentTask] at h; simp [h])
  cases hfp : findParent m.tasks m.cursorID with
  | none => rw [hfp] at hfps; simp at hfps
  | some cj =>
    obtain ⟨c, index⟩ := cj
    obtain ⟨C, x, hc, hx, hxid⟩ := findParent_sound hfp
    have hdel : deleteCurrentTask m = updateCursorAfterDeletion
        { takeSnapshot m with
          tasks := containerModify m.tasks c
            (fun l => removeTaskFromSlice l index) } := by
      unfold deleteCurrentTask
      rw [hfp]
      rfl
    have hsub := mem_ids_of_erase hc hx
    set ts' := containerModify m.tasks c (fun l => removeTaskFromSlice l index)
      with hts'
    have hts : (deleteCurrentTask m).tasks = ts' := by
      rw [hdel, updateCursorAfterDeletion_tasks]
    have hprev : (deleteCurrentTask m).previousID = "" := by
      rw [hdel, updateCursorAfterDeletion_previousID]
    refine ⟨hprev, ?_, ?_, ?_⟩
    · intro hres
      rw [hts] at hres
      have hpne : m.previousID ≠ "" := by
        intro he
        rw [he] at hres
        have : ("" : String) ∈ forestIdList ts' :=
          (findForest_isSome_iff ts').mp hres
        exact h0 (hsub "" this)
      rw [hdel]
      unfold updateCursorAfterDeletion
      rw [if_pos ⟨hpne, hres⟩]
      rfl
    · intro hres
      rw [hts] at hres ⊢
      rw [hdel]
      unfold updateCursorAfterDeletion
      rw [if_neg (by
        rintro ⟨hne, hsome⟩
        exact hres hsome)]
    · by_cases hres : (findForest m.previousID (deleteCurrentTask m).tasks).isSome
      · left
        have hcur : (deleteCurrentTask m).cursorID = m.previousID := by
          rw [hts] at hres
          have hpne : m.previousID ≠ "" := by
            intro he
            rw [he] at hres
            have : ("" : String) ∈ forestIdList ts' :=
              (findForest_isSome_iff ts').mp hres
            exact h0 (hsub "" this)
          rw [hdel]
          unfold updateCursorAfterDeletion
          rw [if_pos ⟨hpne, hres⟩]
          rfl
        rw [hcur, hts]
        rw [hts] at hres
        exact (findForest_isSome_iff ts').mp hres
      · have hcur : (deleteCurrentTask m).cursorID =
            (forestIdList ts').headD "" := by
          rw [hts] at hres
          rw [hdel]
          unfold updateCursorAfterDeletion
          rw [if_neg (by
            rintro ⟨hne, hsome⟩
            exact hres hsome)]
        rw [hts] at *
        cases hts2 : ts' with
        | nil =>
          right
          rw [hcur, hts2]
          exact ⟨rfl, rfl⟩
        | cons t0 rest =>
          left
          rw [hcur, hts2]
          rw [forestIdList_cons, taskIdList_eq]
          simp

/-- Witness for C4: deleting the cursor task with a stale previous id falls
back to the first pre-order id. -/
theorem deleteCurrentTask_spec_witness :
    (deleteCurrentTask { initModel [Task.mk "a" "" .Todo [],
        Task.mk "b" "" .Todo []] with cursorID := "b" }).previousID = "" ∧
    (deleteCurrentTask { initModel [Task.mk "a" "" .Todo [],
        Task.mk "b" "" .Todo []] with cursorID := "b" }).cursorID = "a" := by
  have hspec := deleteCurrentTask_spec
    { initModel [Task.mk "a" "" .Todo [], Task.mk "b" "" .Todo []] with
      cursorID := "b" } (by decide) (Task.mk "b" "" .Todo []) rfl
  refine ⟨hspec.1, ?_⟩
  have h3 := hspec.2.2.1 (by decide)
  rw [h3]
  rfl

/- ### Flatten membership and `findTaskByID` characterisation -/

@[simp] theorem flattenForest_nil : flattenForest [] = [] := rfl

@[simp] theorem flattenForest_cons (t ts) :
    flattenForest (t :: ts) = flattenTask t ++ flattenForest ts := rfl

theorem flattenTask_eq (t : Task) :
    flattenTask t = t :: flattenForest t.subtasks := by
  cases t; rfl

theorem labelForest_eq_map {α : Type} (lab : Task → α) : ∀ ts : List Task,
    labelForest lab ts = (flattenForest ts).map lab := by
  refine forestInduction ?_ ?_
  · rfl
  · intro i ti s sub ts ihsub ihts
    rw [labelForest_cons, flattenForest_cons, labelTask_eq, flattenTask_eq]
    simp [ihsub, ihts]

theorem self_mem_flattenTask (t : Task) : t ∈ flattenTask t := by
  rw [flattenTask_eq]
  exact List.mem_cons_self _ _

theorem mem_flattenTask_of_sub {t : Task} {a : Task}
    (h : a ∈ flattenForest t.subtasks) : a ∈ flattenTask t := by
  rw [flattenTask_eq]
  exact List.mem_cons_of_mem _ h

theorem mem_flattenForest_lift {ts : List Task} {k : Nat} {u : Task} {a : Task}
    (hk : ts[k]? = some u) (ha : a ∈ flattenTask u) : a ∈ flattenForest ts := by
  induction ts generalizing k with
  | nil => simp at hk
  | cons t ts ih =>
    cases k with
    | zero =>
      simp only [List.getElem?_cons_zero, Option.some.injEq] at hk
      subst hk
      simp [List.mem_append, ha]
    | succ k =>
      simp only [List.getElem?_cons_succ] at hk
      simp [List.mem_append, ih hk]

theorem mem_flattenForest_of_mem {C : List Task} {x : Task} (h : x ∈ C) :
    x ∈ flattenForest C := by
  induction C with
  | nil => simp at h
  | cons y ys ih =>
    rcases List.mem_cons.mp h with h | h
    · subst h
      simp [List.mem_append, self_mem_flattenTask]
    · simp [List.mem_append, ih h]

theorem mem_flattenForest_of_taskAt {ts : List Task} {p : List Nat} {par : Task}
    {a : Task} (hp : taskAt p ts = some par) (ha : a ∈ flattenTask par) :
    a ∈ flattenForest ts := by
  induction p generalizing ts with
  | nil => simp at hp
  | cons i p ih =>
    rw [taskAt_cons_ne_nil] at hp
    cases hx : ts[i]? with
    | none => rw [hx] at hp; exact absurd hp (by simp)
    | some x =>
      rw [hx] at hp
      cases p with
      | nil =>
        simp only [Option.some.injEq] at hp
        subst hp
        exact mem_flattenForest_lift hx ha
      | cons j q =>
        exact mem_flattenForest_lift hx (mem_flattenTask_of_sub (ih hp))

theorem mem_flattenForest_of_container {ts : List Task} {c : Option (List Nat)}
    {C : List Task} {x : Task} (hc : containerAt ts c = some C) (hx : x ∈ C) :
    x ∈ flattenForest ts := by
  cases c with
  | none =>
    simp only [containerAt, Option.some.injEq] at hc
    subst hc
    exact mem_flattenForest_of_mem hx
  | some p =>
    simp only [containerAt, Option.map_eq_some'] at hc
    obtain ⟨par, hpar, hsub⟩ := hc
    subst hsub
    exact mem_flattenForest_of_taskAt hpar
      (mem_flattenTask_of_sub (mem_flattenForest_of_mem hx))

theorem findForest_mem_flatten {tid : String} : ∀ (ts : List Task) (r : Task),
    findForest tid ts = some r → r ∈ flattenForest ts := by
  refine forestInduction ?_ ?_
  · intro r h; simp at h
  · intro i ti s sub ts ihsub ihts r h
    rw [findForest_cons, findTask_mk] at h
    by_cases hid : i = tid
    · rw [if_pos hid] at h
      simp only [Option.some.injEq] at h
      rw [← h]
      simp [List.mem_append, self_mem_flattenTask]
    · rw [if_neg hid] at h
      cases hsub : findForest tid sub with
      | some r₁ =>
        rw [hsub] at h
        simp only [Option.some.injEq] at h
        rw [← h]
        have : r₁ ∈ flattenForest sub := ihsub r₁ hsub
        simp only [flattenForest_cons, List.mem_append]
        exact Or.inl (mem_flattenTask_of_sub (by simpa using this))
      | none =>
        rw [hsub] at h
        simp [List.mem_append, ihts r h]

/-- Under unique ids, `findTaskByID` returns exactly the task of the forest
bearing the id. -/
theorem findForest_char {ts : List Task} {t : Task}
    (hn : (forestIdList ts).Nodup) (hmem : t ∈ flattenForest ts) :
    findForest t.id ts = some t := by
  have hidmem : t.id ∈ forestIdList ts := by
    rw [forestIdList_eq_label, labelForest_eq_map]
    exact List.mem_map_of_mem Task.id hmem
  have hsome := (findForest_isSome_iff ts).mpr hidmem
  cases hf : findForest t.id ts with
  | none => rw [hf] at hsome; simp at hsome
  | some r =>
    have hrid : r.id = t.id := findForest_id ts r hf
    have hrmem : r ∈ flattenForest ts := findForest_mem_flatten ts r hf
    have hinj : r = t := by
      have hn2 : ((flattenForest ts).map Task.id).Nodup := by
        rw [forestIdList_eq_label, labelForest_eq_map] at hn
        exact hn
      exact List.inj_on_of_nodup_map hn2 hrmem hmem hrid
    rw [hinj]

/- ### Claim C9: structural moves preserve tasks and their attributes -/

theorem ms_coe_append {α : Type} (s u : List α) :
    ((s ++ u : List α) : Multiset α) = (s : Multiset α) + (u : Multiset α) :=
  (Multiset.coe_add s u).symm

/-- The attribute triple is blind to the subtasks field. -/
theorem taskTriple_withSubtasks (x : Task) (c : List Task) :
    taskTriple (x.withSubtasks c) = taskTriple x := by
  cases x; rfl

/-- Container-level context at multiset granularity. -/
theorem container_ctx_ms {α : Type} {lab : Task → α}
    (hlab : ∀ x c, lab (x.withSubtasks c) = lab x)
    {ts : List Task} {c : Option (List Nat)} {C : List Task}
    (hc : containerAt ts c = some C) :
    ∃ M : Multiset α,
      ((labelForest lab ts : List α) : Multiset α) =
        M + ↑(labelForest lab C) ∧
      ∀ f, ((labelForest lab (containerModify ts c f) : List α) : Multiset α) =
        M + ↑(labelForest lab (f C)) := by
  obtain ⟨A, B, hEq, hMod⟩ := labelForest_container_ctx hlab hc
  refine ⟨(A : Multiset α) + (B : Multiset α), ?_, fun f => ?_⟩
  · rw [hEq]
    simp only [ms_coe_append]
    abel
  · rw [hMod f]
    simp only [ms_coe_append]
    abel

theorem swap_decomp {C : List Task} {k : Nat} {t b : Task}
    (hk : C[k]? = some t) (hb : C[k - 1]? = some b) (hpos : k ≠ 0) :
    ∃ A₁ B₁, C = A₁ ++ b :: t :: B₁ ∧ A₁.length = k - 1 ∧
      swapWithPrev C k = A₁ ++ t :: b :: B₁ := by
  obtain ⟨A₁, E, hC, hlen⟩ := exists_decomp hb
  have hk2 : E[0]? = some t := by
    subst hC
    have h1 : A₁ ++ b :: E = (A₁ ++ [b]) ++ E := by simp
    rw [h1] at hk
    have h2 : k = (A₁ ++ [b]).length := by
      simp only [List.length_append, List.length_singleton]
      omega
    rw [h2] at hk
    rwa [getElem?_append_len] at hk
  cases E with
  | nil => simp at hk2
  | cons e E' =>
    simp only [List.getElem?_cons_zero, Option.some.injEq] at hk2
    subst hk2
    refine ⟨A₁, E', hC, hlen, ?_⟩
    subst hC
    have hkk : k = A₁.length + 1 := by omega
    rw [hkk]
    exact swapWithPrev_append

theorem ms_swap {α : Type} (lab : Task → α) (A₁ B₁ : List Task) (t b : Task) :
    ((labelForest lab (A₁ ++ t :: b :: B₁) : List α) : Multiset α) =
      ↑(labelForest lab (A₁ ++ b :: t :: B₁)) := by
  simp only [labelForest_append, labelForest_cons, ms_coe_append]
  abel

/-- Attribute-multiset preservation transfers to id-multiset preservation. -/
theorem forestIdList_eq_map_fst (ts : List Task) :
    forestIdList ts = (labelForest taskTriple ts).map Prod.fst := by
  rw [forestIdList_eq_label, labelForest_eq_map, labelForest_eq_map,
    List.map_map]
  rfl

theorem ids_of_attrs {ts ts' : List Task}
    (h : ((labelForest taskTriple ts' : List (String × String × TaskStatus)) :
        Multiset (String × String × TaskStatus)) =
      ↑(labelForest taskTriple ts)) :
    ((forestIdList ts' : List String) : Multiset String) =
      ↑(forestIdList ts) := by
  have hmap := congrArg (Multiset.map Prod.fst) h
  rw [Multiset.map_coe, Multiset.map_coe] at hmap
  rw [forestIdList_eq_map_fst, forestIdList_eq_map_fst]
  exact hmap

theorem nodup_of_attrs {ts ts' : List Task}
    (hn : (forestIdList ts).Nodup)
    (h : ((labelForest taskTriple ts' : List (String × String × TaskStatus)) :
        Multiset (String × String × TaskStatus)) =
      ↑(labelForest taskTriple ts)) :
    (forestIdList ts').Nodup := by
  have hperm : (forestIdList ts').Perm (forestIdList ts) :=
    Multiset.coe_eq_coe.mp (ids_of_attrs h)
  exact hperm.nodup_iff.mpr hn

/-- `moveTaskUp` under its precondition preserves the attribute multiset and
the task found at the cursor. -/
theorem moveTaskUp_preserves {m : Model} {c : Option (List Nat)} {k : Nat}
    (hn : (forestIdList m.tasks).Nodup)
    (hfp : findParent m.tasks m.cursorID = some (c, k)) (hk : k ≠ 0) :
    ((labelForest taskTriple (moveTaskUp m).tasks :
        List (String × String × TaskStatus)) :
      Multiset (String × String × TaskStatus)) =
      ↑(labelForest taskTriple m.tasks) ∧
    findForest m.cursorID (moveTaskUp m).tasks =
      findForest m.cursorID m.tasks := by
  obtain ⟨C, t, hc, hkk, hid⟩ := findParent_sound hfp
  have htasks : (moveTaskUp m).tasks =
      containerModify m.tasks c (fun l => swapWithPrev l k) := by
    unfold moveTaskUp
    simp only [hfp]
    rw [if_neg hk]
    rfl
  have hklen : k < C.length := by
    obtain ⟨A0, B0, hd, hl⟩ := exists_decomp hkk
    rw [hd]
    simp only [List.length_append, List.length_cons]
    omega
  obtain ⟨b, hb⟩ : ∃ b, C[k - 1]? = some b := by
    have h2 : k - 1 < C.length := by omega
    exact ⟨C.get ⟨k - 1, h2⟩, List.getElem?_eq_getElem h2⟩
  obtain ⟨A₁, B₁, hC, hlen, hswap⟩ := swap_decomp hkk hb hk
  obtain ⟨M, hM1, hM2⟩ := container_ctx_ms taskTriple_withSubtasks hc
  have hattrs : ((labelForest taskTriple (moveTaskUp m).tasks :
      List (String × String × TaskStatus)) :
      Multiset (String × String × TaskStatus)) =
      ↑(labelForest taskTriple m.tasks) := by
    rw [htasks, hM2, hM1, hswap, hC, ms_swap]
  refine ⟨hattrs, ?_⟩
  have hmemC : t ∈ C := by
    rw [hC]
    simp
  have hfind1 : findForest m.cursorID m.tasks = some t := by
    rw [← hid]
    exact findForest_char hn (mem_flattenForest_of_container hc hmemC)
  have hc' : containerAt (moveTaskUp m).tasks c = some (swapWithPrev C k) := by
    rw [htasks]
    exact containerAt_containerModify_self hc _
  have hmem' : t ∈ swapWithPrev C k := by
    rw [hswap]
    simp
  have hn' : (forestIdList (moveTaskUp m).tasks).Nodup := nodup_of_attrs hn hattrs
  have hfind2 : findForest m.cursorID (moveTaskUp m).tasks = some t := by
    rw [← hid]
    exact findForest_char hn' (mem_flattenForest_of_container hc' hmem')
  rw [hfind1, hfind2]

/-- `moveTaskDown` under its precondition preserves the attribute multiset and
the task found at the cursor. -/
theorem moveTaskDown_preserves {m : Model} {c : Option (List Nat)} {k : Nat}
    {C : List Task} (hn : (forestIdList m.tasks).Nodup)
    (hfp : findParent m.tasks m.cursorID = some (c, k))
    (hcont : containerAt m.tasks c = some C) (hlast : k < C.length - 1) :
    ((labelForest taskTriple (moveTaskDown m).tasks :
        List (String × String × TaskStatus)) :
      Multiset (String × String × TaskStatus)) =
      ↑(labelForest taskTriple m.tasks) ∧
    findForest m.cursorID (moveTaskDown m).tasks =
      findForest m.cursorID m.tasks := by
  obtain ⟨C0, t, hc0, hkk, hid⟩ := findParent_sound hfp
  have hCC : C = C0 := by
    rw [hc0] at hcont
    exact (Option.some.inj hcont).symm
  subst hCC
  have htasks : (moveTaskDown m).tasks =
      containerModify m.tasks c (fun l => swapWithPrev l (k + 1)) := by
    unfold moveTaskDown
    simp only [hfp, hcont]
    rw [if_neg (by omega)]
    rfl
  have hklen : k < C.length := by
    obtain ⟨A0, B0, hd, hl⟩ := exists_decomp hkk
    rw [hd]
    simp only [List.length_append, List.length_cons]
    omega
  obtain ⟨n, hnext⟩ : ∃ n, C[k + 1]? = some n := by
    have h2 : k + 1 < C.length := by omega
    exact ⟨C.get ⟨k + 1, h2⟩, List.getElem?_eq_getElem h2⟩
  have hb : (k + 1) - 1 = k := by omega
  obtain ⟨A₁, B₁, hC, hlen, hswap⟩ := swap_decomp hnext (by rw [hb]; exact hkk)
    (by omega)
  obtain ⟨M, hM1, hM2⟩ := container_ctx_ms taskTriple_withSubtasks hcont
  have hattrs : ((labelForest taskTriple (moveTaskDown m).tasks :
      List (String × String × TaskStatus)) :
      Multiset (String × String × TaskStatus)) =
      ↑(labelForest taskTriple m.tasks) := by
    rw [htasks, hM2, hM1, hswap, hC, ms_swap]
  refine ⟨hattrs, ?_⟩
  have hmemC : t ∈ C := by
    rw [hC]
    simp
  have hfind1 : findForest m.cursorID m.tasks = some t := by
    rw [← hid]
    exact findForest_char hn (mem_flattenForest_of_container hcont hmemC)
  have hc' : containerAt (moveTaskDown m).tasks c =
      some (swapWithPrev C (k + 1)) := by
    rw [htasks]
    exact containerAt_containerModify_self hcont _
  have hmem' : t ∈ swapWithPrev C (k + 1) := by
    rw [hswap]
    simp
  have hn' : (forestIdList (moveTaskDown m).tasks).Nodup :=
    nodup_of_attrs hn hattrs
  have hfind2 : findForest m.cursorID (moveTaskDown m).tasks = some t := by
    rw [← hid]
    exact findForest_char hn' (mem_flattenForest_of_container hc' hmem')
  rw [hfind1, hfind2]

theorem modifyIdx_congr {l : List Task} {i : Nat} {x : Task}
    (h : l[i]? = some x) {f g : Task → Task} (hfg : f x = g x) :
    modifyIdx l i f = modifyIdx l i g := by
  induction l generalizing i with
  | nil => rfl
  | cons y ys ih =>
    cases i with
    | zero =>
      simp only [List.getElem?_cons_zero, Option.some.injEq] at h
      subst h
      simp only [modifyIdx, hfg]
    | succ n =>
      simp only [List.getElem?_cons_succ] at h
      simp only [modifyIdx, ih h]

/-- `modifyAt` only looks at the value found at the path. -/
theorem modifyAt_congr : ∀ {p : List Nat} {ts : List Task} {u : Task}
    {f g : Task → Task}, taskAt p ts = some u → f u = g u →
    modifyAt p f ts = modifyAt p g ts := by
  intro p
  induction p with
  | nil => intro ts u f g hp _; simp [taskAt] at hp
  | cons i p' ih =>
    intro ts u f g hp hfg
    rw [taskAt_cons_ne_nil] at hp
    cases hx : ts[i]? with
    | none => rw [hx] at hp; exact absurd hp (by simp)
    | some x =>
      rw [hx] at hp
      rw [modifyAt_cons, modifyAt_cons]
      cases p' with
      | nil =>
        simp only [Option.some.injEq] at hp
        subst hp
        exact modifyIdx_congr hx hfg
      | cons q1 q2 =>
        refine modifyIdx_congr hx ?_
        show x.withSubtasks (modifyAt (q1 :: q2) f x.subtasks) =
          x.withSubtasks (modifyAt (q1 :: q2) g x.subtasks)
        rw [ih hp hfg]

/-- `containerModify` only looks at the container content. -/
theorem containerModify_congr {ts : List Task} {c : Option (List Nat)}
    {C : List Task} (hc : containerAt ts c = some C)
    {f g : List Task → List Task} (hfg : f C = g C) :
    containerModify ts c f = containerModify ts c g := by
  cases c with
  | none =>
    simp only [containerAt, Option.some.injEq] at hc
    subst hc
    exact hfg
  | some p =>
    simp only [containerAt, Option.map_eq_some'] at hc
    obtain ⟨par, hpar, hsub⟩ := hc
    subst hsub
    refine modifyAt_congr hpar ?_
    show par.withSubtasks (f par.subtasks) = par.withSubtasks (g par.subtasks)
    rw [hfg]

/-- Membership below a container lifts to the whole forest. -/
theorem mem_flattenForest_of_container_flat {ts : List Task}
    {c : Option (List Nat)} {C : List Task} {x : Task}
    (hc : containerAt ts c = some C) (hx : x ∈ flattenForest C) :
    x ∈ flattenForest ts := by
  cases c with
  | none =>
    simp only [containerAt, Option.some.injEq] at hc
    subst hc
    exact hx
  | some p =>
    simp only [containerAt, Option.map_eq_some'] at hc
    obtain ⟨par, hpar, hsub⟩ := hc
    subst hsub
    exact mem_flattenForest_of_taskAt hpar (mem_flattenTask_of_sub hx)

/-- Re-rooting one subtree under the previous sibling keeps the label
multiset. -/
theorem ms_indent {α : Type} {lab : Task → α}
    (hlab : ∀ x c, lab (x.withSubtasks c) = lab x) (A' B : List Task)
    (prev t : Task) :
    ((labelForest lab (A' ++ (prev.withSubtasks (prev.subtasks ++ [t])) :: B) :
        List α) : Multiset α) =
      ↑(labelForest lab (A' ++ prev :: t :: B)) := by
  simp only [labelForest_append, labelForest_cons, labelForest_nil,
    List.append_nil, labelTask_eq, Task.subtasks_withSubtasks, hlab,
    ms_coe_append, ← Multiset.cons_coe, ← Multiset.singleton_add]
  abel

/-- Inserting one subtree into a slice adds exactly its labels. -/
theorem ms_insert {α : Type} (lab : Task → α) (A B : List Task) (x t : Task) :
    ((labelForest lab (A ++ x :: t :: B) : List α) : Multiset α) =
      ↑(labelForest lab (A ++ x :: B)) + ↑(labelTask lab t) := by
  simp only [labelForest_append, labelForest_cons, ms_coe_append]
  abel

/-- `indentTask` under its precondition preserves the attribute multiset and
the task found at the cursor. -/
theorem indentTask_preserves {m : Model} {c : Option (List Nat)} {k : Nat}
    (hn : (forestIdList m.tasks).Nodup)
    (hfp : findParent m.tasks m.cursorID = some (c, k)) (hk : k ≠ 0) :
    ((labelForest taskTriple (indentTask m).tasks :
        List (String × String × TaskStatus)) :
      Multiset (String × String × TaskStatus)) =
      ↑(labelForest taskTriple m.tasks) ∧
    findForest m.cursorID (indentTask m).tasks =
      findForest m.cursorID m.tasks := by
  obtain ⟨C, t, hc, hkk, hid⟩ := findParent_sound hfp
  obtain ⟨A, B, hCd, hlen⟩ := exists_decomp hkk
  rcases List.eq_nil_or_concat' A with hA | hA
  · exfalso
    rw [hA] at hlen
    simp at hlen
    omega
  obtain ⟨A', prev, hA⟩ := hA
  have hA'len : A'.length = k - 1 := by
    rw [hA] at hlen
    simp at hlen
    omega
  have hrem : removeTaskFromSlice C k = A' ++ prev :: B := by
    rw [hCd, ← hlen, removeTaskFromSlice_append, hA]
    simp
  have hmod : modifyIdx (removeTaskFromSlice C k) (k - 1)
      (fun pr => pr.withSubtasks (pr.subtasks ++ [t])) =
      A' ++ (prev.withSubtasks (prev.subtasks ++ [t])) :: B := by
    rw [hrem, ← hA'len, modifyIdx_append]
  have hCeq : C = A' ++ prev :: t :: B := by
    rw [hCd, hA]
    simp
  have hfC : (fun l : List Task => match l[k]? with
      | none => l
      | some task => modifyIdx (removeTaskFromSlice l k) (k - 1)
          (fun pr => pr.withSubtasks (pr.subtasks ++ [task]))) C =
      (fun _ : List Task =>
        A' ++ (prev.withSubtasks (prev.subtasks ++ [t])) :: B) C := by
    show (match C[k]? with
      | none => C
      | some task => modifyIdx (removeTaskFromSlice C k) (k - 1)
          (fun pr => pr.withSubtasks (pr.subtasks ++ [task]))) =
      A' ++ (prev.withSubtasks (prev.subtasks ++ [t])) :: B
    rw [hkk]
    exact hmod
  have htasks : (indentTask m).tasks = containerModify m.tasks c
      (fun _ => A' ++ (prev.withSubtasks (prev.subtasks ++ [t])) :: B) := by
    unfold indentTask
    simp only [hfp]
    rw [if_neg hk]
    show containerModify m.tasks c (fun l => match l[k]? with
      | none => l
      | some task => modifyIdx (removeTaskFromSlice l k) (k - 1)
          (fun pr => pr.withSubtasks (pr.subtasks ++ [task]))) =
      containerModify m.tasks c
        (fun _ => A' ++ (prev.withSubtasks (prev.subtasks ++ [t])) :: B)
    exact containerModify_congr hc hfC
  obtain ⟨M, hM1, hM2⟩ := container_ctx_ms taskTriple_withSubtasks hc
  have hattrs : ((labelForest taskTriple (indentTask m).tasks :
      List (String × String × TaskStatus)) :
      Multiset (String × String × TaskStatus)) =
      ↑(labelForest taskTriple m.tasks) := by
    rw [htasks, hM2, hM1, hCeq]
    rw [ms_indent taskTriple_withSubtasks]
  refine ⟨hattrs, ?_⟩
  have hmemC : t ∈ C := by
    rw [hCeq]
    simp
  have hfind1 : findForest m.cursorID m.tasks = some t := by
    rw [← hid]
    exact findForest_char hn (mem_flattenForest_of_container hc hmemC)
  have hc' : containerAt (indentTask m).tasks c =
      some (A' ++ (prev.withSubtasks (prev.subtasks ++ [t])) :: B) := by
    rw [htasks]
    exact containerAt_containerModify_self hc _
  have hsub' : t ∈ flattenForest
      ((prev.withSubtasks (prev.subtasks ++ [t])).subtasks) := by
    rw [Task.subtasks_withSubtasks]
    exact mem_flattenForest_of_mem (by simp)
  have hmem' : t ∈ flattenForest
      (A' ++ (prev.withSubtasks (prev.subtasks ++ [t])) :: B) :=
    mem_flattenForest_lift getElem?_decomp_self (mem_flattenTask_of_sub hsub')
  have hn' : (forestIdList (indentTask m).tasks).Nodup :=
    nodup_of_attrs hn hattrs
  have hfind2 : findForest m.cursorID (indentTask m).tasks = some t := by
    rw [← hid]
    exact findForest_char hn' (mem_flattenForest_of_container_flat hc' hmem')
  rw [hfind1, hfind2]

/-- `unindentTask` under its precondition preserves the attribute multiset and
the task found at the cursor. -/
theorem unindentTask_preserves {m : Model} {p : List Nat} {k : Nat}
    (hn : (forestIdList m.tasks).Nodup)
    (hfp : findParent m.tasks m.cursorID = some (some p, k)) :
    ((labelForest taskTriple (unindentTask m).tasks :
        List (String × String × TaskStatus)) :
      Multiset (String × String × TaskStatus)) =
      ↑(labelForest taskTriple m.tasks) ∧
    findForest m.cursorID (unindentTask m).tasks =
      findForest m.cursorID m.tasks := by
  obtain ⟨C, t, hc, hkk, hid⟩ := findParent_sound hfp
  have hc2 := hc
  simp only [containerAt, Option.map_eq_some'] at hc2
  obtain ⟨parent, hpar, hsubeq⟩ := hc2
  have hsubk : parent.subtasks[k]? = some t := by
    rw [hsubeq]
    exact hkk
  obtain ⟨Ak, Bk, hPd, hPlen⟩ := exists_decomp hsubk
  have hremP : removeTaskFromSlice parent.subtasks k = Ak ++ Bk := by
    rw [hPd, ← hPlen, removeTaskFromSlice_append]
  obtain ⟨A, B, hEq, hMod⟩ :=
    labelForest_ctx taskTriple_withSubtasks p m.tasks parent hpar
  have h1 : labelForest taskTriple (modifyAt p
      (fun x => x.withSubtasks (removeTaskFromSlice x.subtasks k)) m.tasks) =
      A ++ labelTask taskTriple (parent.withSubtasks (Ak ++ Bk)) ++ B := by
    rw [hMod (fun x => x.withSubtasks (removeTaskFromSlice x.subtasks k))]
    show A ++ labelTask taskTriple
        (parent.withSubtasks (removeTaskFromSlice parent.subtasks k)) ++ B = _
    rw [hremP]
  have hms1 : ((labelForest taskTriple (modifyAt p
      (fun x => x.withSubtasks (removeTaskFromSlice x.subtasks k)) m.tasks) :
      List (String × String × TaskStatus)) :
      Multiset (String × String × TaskStatus)) +
      ↑(labelTask taskTriple t) = ↑(labelForest taskTriple m.tasks) := by
    rw [h1, hEq]
    simp only [labelTask_eq, taskTriple_withSubtasks, Task.subtasks_withSubtasks,
      hPd, labelForest_append, labelForest_cons, labelForest_nil,
      List.append_nil, ms_coe_append, ← Multiset.cons_coe,
      ← Multiset.singleton_add]
    abel
  have hpar1 : taskAt p (modifyAt p
      (fun x => x.withSubtasks (removeTaskFromSlice x.subtasks k)) m.tasks) =
      some (parent.withSubtasks (Ak ++ Bk)) := by
    rw [taskAt_modifyAt_self
      (fun x => x.withSubtasks (removeTaskFromSlice x.subtasks k)) hpar]
    show some (parent.withSubtasks (removeTaskFromSlice parent.subtasks k)) = _
    rw [hremP]
  have hP1mem : (parent.withSubtasks (Ak ++ Bk)) ∈ flattenForest (modifyAt p
      (fun x => x.withSubtasks (removeTaskFromSlice x.subtasks k)) m.tasks) :=
    mem_flattenForest_of_taskAt hpar1 (self_mem_flattenTask _)
  have hidmem : parent.id ∈ forestIdList (modifyAt p
      (fun x => x.withSubtasks (removeTaskFromSlice x.subtasks k)) m.tasks) := by
    have h2 : (parent.withSubtasks (Ak ++ Bk)).id ∈ forestIdList (modifyAt p
        (fun x => x.withSubtasks (removeTaskFromSlice x.subtasks k)) m.tasks) := by
      rw [forestIdList_eq_label, labelForest_eq_map]
      exact List.mem_map_of_mem Task.id hP1mem
    simpa using h2
  obtain ⟨gj, hfp2⟩ :=
    Option.isSome_iff_exists.mp (findParent_isSome_of_mem hidmem)
  obtain ⟨g, j⟩ := gj
  have hn1 : (forestIdList (modifyAt p
      (fun x => x.withSubtasks (removeTaskFromSlice x.subtasks k))
      m.tasks)).Nodup := by
    have hmap := congrArg (Multiset.map Prod.fst) hms1
    rw [Multiset.map_add, Multiset.map_coe, Multiset.map_coe,
      Multiset.map_coe] at hmap
    have hle : ((forestIdList (modifyAt p
        (fun x => x.withSubtasks (removeTaskFromSlice x.subtasks k)) m.tasks) :
        List String) : Multiset String) ≤ ↑(forestIdList m.tasks) := by
      rw [forestIdList_eq_map_fst, forestIdList_eq_map_fst, ← hmap]
      exact Multiset.le_add_right _ _
    exact Multiset.coe_nodup.mp
      (Multiset.nodup_of_le hle (Multiset.coe_nodup.mpr hn))
  obtain ⟨G, parent₁, hcG, hjj, hpid⟩ := findParent_sound hfp2
  obtain ⟨Ag, Bg, hGd, hGlen⟩ := exists_decomp hjj
  have hP1mem2 : parent₁ ∈ flattenForest (modifyAt p
      (fun x => x.withSubtasks (removeTaskFromSlice x.subtasks k)) m.tasks) :=
    mem_flattenForest_of_container hcG (by rw [hGd]; simp)
  have hpeq : parent₁ = parent.withSubtasks (Ak ++ Bk) := by
    have h2 : ((flattenForest (modifyAt p
        (fun x => x.withSubtasks (removeTaskFromSlice x.subtasks k))
        m.tasks)).map Task.id).Nodup := by
      rw [forestIdList_eq_label, labelForest_eq_map] at hn1
      exact hn1
    refine List.inj_on_of_nodup_map h2 hP1mem2 hP1mem ?_
    rw [hpid]
    simp
  have hins : insertTaskInSlice G (j + 1) t = Ag ++ parent₁ :: t :: Bg := by
    rw [hGd]
    have h3 : Ag ++ parent₁ :: Bg = (Ag ++ [parent₁]) ++ Bg := by simp
    rw [h3]
    have h4 : j + 1 = (Ag ++ [parent₁]).length := by
      simp [List.length_append, hGlen]
    rw [h4, insertTaskInSlice_append]
    simp
  have hts : (unindentTask m).tasks = containerModify (modifyAt p
      (fun x => x.withSubtasks (removeTaskFromSlice x.subtasks k)) m.tasks) g
      (fun l => insertTaskInSlice l (j + 1) t) := by
    unfold unindentTask
    simp only [hfp]
    have hpar2 : taskAt p (takeSnapshot m).tasks = some parent := hpar
    simp only [hpar2]
    have hsubk2 : parent.subtasks[k]? = some t := hsubk
    simp only [hsubk2]
    have hfp3 : findParent (modifyAt p
        (fun x => x.withSubtasks (removeTaskFromSlice x.subtasks k))
        (takeSnapshot m).tasks) parent.id = some (g, j) := hfp2
    simp only [hfp3]
    rfl
  obtain ⟨Mg, hMg1, hMg2⟩ := container_ctx_ms taskTriple_withSubtasks hcG
  have hattrs : ((labelForest taskTriple (unindentTask m).tasks :
      List (String × String × TaskStatus)) :
      Multiset (String × String × TaskStatus)) =
      ↑(labelForest taskTriple m.tasks) := by
    rw [hts, hMg2, hins, ms_insert, ← hGd, ← add_assoc, ← hMg1]
    exact hms1
  refine ⟨hattrs, ?_⟩
  have htC : t ∈ C := by
    rw [← hsubeq, hPd]
    simp
  have hfind1 : findForest m.cursorID m.tasks = some t := by
    rw [← hid]
    exact findForest_char hn (mem_flattenForest_of_container hc htC)
  have hcG2 : containerAt (unindentTask m).tasks g =
      some (Ag ++ parent₁ :: t :: Bg) := by
    rw [hts, containerAt_containerModify_self hcG, hins]
  have hmem2 : t ∈ Ag ++ parent₁ :: t :: Bg := by simp
  have hn2 : (forestIdList (unindentTask m).tasks).Nodup :=
    nodup_of_attrs hn hattrs
  have hfind2 : findForest m.cursorID (unindentTask m).tasks = some t := by
    rw [← hid]
    exact findForest_char hn2 (mem_flattenForest_of_container hcG2 hmem2)
  rw [hfind1, hfind2]

/-- Claim C9: whenever the precondition of `moveTaskUp`, `moveTaskDown`,
`indentTask` or `unindentTask` holds (under the spec invariant that ids are
unique), the operation preserves the multiset of task ids, preserves the
multiset of (id, title, status) attribute triples — so no task's id, title or
status is created, destroyed or rewritten — and the cursor's task, together
with its owned subtree, is found unchanged: the operation only relocates one
subtree. -/
theorem structural_moves_preserve (m : Model)
    (hn : (forestIdList m.tasks).Nodup) :
    (∀ c k, findParent m.tasks m.cursorID = some (c, k) → k ≠ 0 →
      ((forestIdList (moveTaskUp m).tasks : List String) : Multiset String) =
          ↑(forestIdList m.tasks) ∧
        ((labelForest taskTriple (moveTaskUp m).tasks :
            List (String × String × TaskStatus)) :
          Multiset (String × String × TaskStatus)) =
          ↑(labelForest taskTriple m.tasks) ∧
        findForest m.cursorID (moveTaskUp m).tasks =
          findForest m.cursorID m.tasks) ∧
    (∀ c k C, findParent m.tasks m.cursorID = some (c, k) →
      containerAt m.tasks c = some C → k < C.length - 1 →
      ((forestIdList (moveTaskDown m).tasks : List String) : Multiset String) =
          ↑(forestIdList m.tasks) ∧
        ((labelForest taskTriple (moveTaskDown m).tasks :
            List (String × String × TaskStatus)) :
          Multiset (String × String × TaskStatus)) =
          ↑(labelForest taskTriple m.tasks) ∧
        findForest m.cursorID (moveTaskDown m).tasks =
          findForest m.cursorID m.tasks) ∧
    (∀ c k, findParent m.tasks m.cursorID = some (c, k) → k ≠ 0 →
      ((forestIdList (indentTask m).tasks : List String) : Multiset String) =
          ↑(forestIdList m.tasks) ∧
        ((labelForest taskTriple (indentTask m).tasks :
            List (String × String × TaskStatus)) :
          Multiset (String × String × TaskStatus)) =
          ↑(labelForest taskTriple m.tasks) ∧
        findForest m.cursorID (indentTask m).tasks =
          findForest m.cursorID m.tasks) ∧
    (∀ p k, findParent m.tasks m.cursorID = some (some p, k) →
      ((forestIdList (unindentTask m).tasks : List String) : Multiset String) =
          ↑(forestIdList m.tasks) ∧
        ((labelForest taskTriple (unindentTask m).tasks :
            List (String × String × TaskStatus)) :
          Multiset (String × String × TaskStatus)) =
          ↑(labelForest taskTriple m.tasks) ∧
        findForest m.cursorID (unindentTask m).tasks =
          findForest m.cursorID m.tasks) := by
  refine ⟨?_, ?_, ?_, ?_⟩
  · intro c k hfp hk
    obtain ⟨h1, h2⟩ := moveTaskUp_preserves hn hfp hk
    exact ⟨ids_of_attrs h1, h1, h2⟩
  · intro c k C hfp hcont hlast
    obtain ⟨h1, h2⟩ := moveTaskDown_preserves hn hfp hcont hlast
    exact ⟨ids_of_attrs h1, h1, h2⟩
  · intro c k hfp hk
    obtain ⟨h1, h2⟩ := indentTask_preserves hn hfp hk
    exact ⟨ids_of_attrs h1, h1, h2⟩
  · intro p k hfp
    obtain ⟨h1, h2⟩ := unindentTask_preserves hn hfp
    exact ⟨ids_of_attrs h1, h1, h2⟩

/-- Witness for C9 at a concrete two-task model: the hypotheses hold and
`indentTask` preserves ids, attributes and the cursor's task. -/
theorem structural_moves_preserve_witness :
    ((forestIdList demo9.tasks).Nodup ∧
      findParent demo9.tasks demo9.cursorID = some (none, 1) ∧
      (1 : Nat) ≠ 0) ∧
    (((forestIdList (indentTask demo9).tasks : List String) :
        Multiset String) = ↑(forestIdList demo9.tasks) ∧
      ((labelForest taskTriple (indentTask demo9).tasks :
          List (String × String × TaskStatus)) :
        Multiset (String × String × TaskStatus)) =
        ↑(labelForest taskTriple demo9.tasks) ∧
      findForest demo9.cursorID (indentTask demo9).tasks =
        findForest demo9.cursorID demo9.tasks) :=
  ⟨⟨by decide, rfl, by decide⟩,
    (structural_moves_preserve demo9 (by decide)).2.2.1 none 1 rfl (by decide)⟩

/-- Rewriting the `i`-th element of a container is a `modifyAt` on the
element's path. -/
theorem modifyAt_elemPath {ts : List Task} {c : Option (List Nat)}
    {C : List Task} (hc : containerAt ts c = some C) (i : Nat)
    (f : Task → Task) :
    modifyAt (elemPath c i) f ts =
      containerModify ts c (fun l => modifyIdx l i f) := by
  cases c with
  | none => exact modifyAt_single i f ts
  | some q =>
    simp only [containerAt, Option.map_eq_some'] at hc
    obtain ⟨par, hpar, -⟩ := hc
    have hq : q ≠ [] := by
      intro h
      subst h
      simp [taskAt] at hpar
    show modifyAt (q ++ [i]) f ts = _
    rw [modifyAt_append_singleton hq i f ts]
    rfl

/-- Claim C3: when the indent precondition holds (the cursor's task sits at
index `k > 0` of its container and ids are unique), `indentTask` followed
immediately by `unindentTask` restores the forest exactly — the task returns
to its original container at its original index with every sibling in its
original place — and the cursor still points at it. -/
theorem indent_unindent_inverse {m : Model} {c : Option (List Nat)} {k : Nat}
    (hn : (forestIdList m.tasks).Nodup)
    (hfp : findParent m.tasks m.cursorID = some (c, k)) (hk : k ≠ 0) :
    (unindentTask (indentTask m)).tasks = m.tasks ∧
    (unindentTask (indentTask m)).cursorID = m.cursorID := by
  obtain ⟨C, t, hc, hkk, hid⟩ := findParent_sound hfp
  obtain ⟨A, B0, hCd, hlen⟩ := exists_decomp hkk
  rcases List.eq_nil_or_concat' A with hA | hA
  · exfalso
    rw [hA] at hlen
    simp at hlen
    omega
  obtain ⟨A', prev, hA⟩ := hA
  have hA'len : A'.length = k - 1 := by
    rw [hA] at hlen
    simp at hlen
    omega
  have hrem : removeTaskFromSlice C k = A' ++ prev :: B0 := by
    rw [hCd, ← hlen, removeTaskFromSlice_append, hA]
    simp
  have hmod : modifyIdx (removeTaskFromSlice C k) (k - 1)
      (fun pr => pr.withSubtasks (pr.subtasks ++ [t])) =
      A' ++ (prev.withSubtasks (prev.subtasks ++ [t])) :: B0 := by
    rw [hrem, ← hA'len, modifyIdx_append]
  have hCeq : C = A' ++ prev :: t :: B0 := by
    rw [hCd, hA]
    simp
  have hfC : (fun l : List Task => match l[k]? with
      | none => l
      | some task => modifyIdx (removeTaskFromSlice l k) (k - 1)
          (fun pr => pr.withSubtasks (pr.subtasks ++ [task]))) C =
      (fun _ : List Task =>
        A' ++ (prev.withSubtasks (prev.subtasks ++ [t])) :: B0) C := by
    show (match C[k]? with
      | none => C
      | some task => modifyIdx (removeTaskFromSlice C k) (k - 1)
          (fun pr => pr.withSubtasks (pr.subtasks ++ [task]))) =
      A' ++ (prev.withSubtasks (prev.subtasks ++ [t])) :: B0
    rw [hkk]
    exact hmod
  have htasks : (indentTask m).tasks = containerModify m.tasks c
      (fun _ => A' ++ (prev.withSubtasks (prev.subtasks ++ [t])) :: B0) := by
    unfold indentTask
    simp only [hfp]
    rw [if_neg hk]
    show containerModify m.tasks c (fun l => match l[k]? with
      | none => l
      | some task => modifyIdx (removeTaskFromSlice l k) (k - 1)
          (fun pr => pr.withSubtasks (pr.subtasks ++ [task]))) =
      containerModify m.tasks c
        (fun _ => A' ++ (prev.withSubtasks (prev.subtasks ++ [t])) :: B0)
    exact containerModify_congr hc hfC
  have hattrs := (indentTask_preserves hn hfp hk).1
  have hn' : (forestIdList (indentTask m).tasks).Nodup :=
    nodup_of_attrs hn hattrs
  have hcurI : (indentTask m).cursorID = m.cursorID := by
    unfold indentTask
    simp only [hfp]
    rw [if_neg hk]
    rfl
  have hcont' : containerAt (indentTask m).tasks c =
      some (A' ++ (prev.withSubtasks (prev.subtasks ++ [t])) :: B0) := by
    rw [htasks]
    exact containerAt_containerModify_self hc _
  have hprevAt : (A' ++ (prev.withSubtasks (prev.subtasks ++ [t])) :: B0)[k - 1]? =
      some (prev.withSubtasks (prev.subtasks ++ [t])) := by
    rw [← hA'len]
    exact getElem?_decomp_self
  have htaskAt' : taskAt (elemPath c (k - 1)) (indentTask m).tasks =
      some (prev.withSubtasks (prev.subtasks ++ [t])) := by
    rw [taskAt_elemPath hcont', hprevAt]
  have hcsub : containerAt (indentTask m).tasks (some (elemPath c (k - 1))) =
      some (prev.subtasks ++ [t]) := by
    simp [containerAt, htaskAt']
  have hgetT : (prev.subtasks ++ [t])[prev.subtasks.length]? = some t :=
    getElem?_decomp_self
  have hfp' : findParent (indentTask m).tasks m.cursorID =
      some (some (elemPath c (k - 1)), prev.subtasks.length) :=
    findParent_char hn' hcsub hgetT hid
  have hrestore : (prev.withSubtasks (prev.subtasks ++ [t])).withSubtasks
      (removeTaskFromSlice
        (prev.withSubtasks (prev.subtasks ++ [t])).subtasks
        prev.subtasks.length) = prev := by
    rw [Task.subtasks_withSubtasks, removeTaskFromSlice_append,
      List.append_nil, Task.withSubtasks_withSubtasks, Task.withSubtasks_self]
  have hts1 : modifyAt (elemPath c (k - 1))
      (fun x => x.withSubtasks (removeTaskFromSlice x.subtasks
        prev.subtasks.length)) (indentTask m).tasks =
      containerModify m.tasks c (fun _ => A' ++ prev :: B0) := by
    rw [modifyAt_elemPath hcont', htasks, containerModify_containerModify]
    refine containerModify_congr hc ?_
    show modifyIdx (A' ++ (prev.withSubtasks (prev.subtasks ++ [t])) :: B0)
        (k - 1) (fun x => x.withSubtasks (removeTaskFromSlice x.subtasks
          prev.subtasks.length)) = A' ++ prev :: B0
    rw [← hA'len, modifyIdx_append, hrestore]
  have hms1 : ((labelForest taskTriple
      (containerModify m.tasks c (fun _ => A' ++ prev :: B0)) :
      List (String × String × TaskStatus)) :
      Multiset (String × String × TaskStatus)) +
      ↑(labelTask taskTriple t) = ↑(labelForest taskTriple m.tasks) := by
    obtain ⟨M, hM1, hM2⟩ := container_ctx_ms taskTriple_withSubtasks hc
    rw [hM2, hM1, hCeq, ms_insert taskTriple A' B0 prev t, add_assoc]
  have hn1 : (forestIdList
      (containerModify m.tasks c (fun _ => A' ++ prev :: B0))).Nodup := by
    have hmap := congrArg (Multiset.map Prod.fst) hms1
    rw [Multiset.map_add, Multiset.map_coe, Multiset.map_coe,
      Multiset.map_coe] at hmap
    have hle : ((forestIdList
        (containerModify m.tasks c (fun _ => A' ++ prev :: B0)) :
        List String) : Multiset String) ≤ ↑(forestIdList m.tasks) := by
      rw [forestIdList_eq_map_fst, forestIdList_eq_map_fst, ← hmap]
      exact Multiset.le_add_right _ _
    exact Multiset.coe_nodup.mp
      (Multiset.nodup_of_le hle (Multiset.coe_nodup.mpr hn))
  have hcont1 : containerAt
      (containerModify m.tasks c (fun _ => A' ++ prev :: B0)) c =
      some (A' ++ prev :: B0) := containerAt_containerModify_self hc _
  have hgetP : (A' ++ prev :: B0)[k - 1]? = some prev := by
    rw [← hA'len]
    exact getElem?_decomp_self
  have hfp2 : findParent
      (containerModify m.tasks c (fun _ => A' ++ prev :: B0))
      (prev.withSubtasks (prev.subtasks ++ [t])).id = some (c, k - 1) :=
    findParent_char hn1 hcont1 hgetP (by simp)
  have hU : unindentTask (indentTask m) =
      { takeSnapshot (indentTask m) with
        tasks := containerModify
          (modifyAt (elemPath c (k - 1))
            (fun x => x.withSubtasks (removeTaskFromSlice x.subtasks
              prev.subtasks.length))
            (takeSnapshot (indentTask m)).tasks) c
          (fun l => insertTaskInSlice l (k - 1 + 1) t) } := by
    unfold unindentTask
    rw [hcurI]
    simp only [hfp']
    have h6 : taskAt (elemPath c (k - 1)) (takeSnapshot (indentTask m)).tasks =
        some (prev.withSubtasks (prev.subtasks ++ [t])) := htaskAt'
    simp only [h6]
    have h7 : (prev.withSubtasks (prev.subtasks ++ [t])).subtasks[
        prev.subtasks.length]? = some t := by
      rw [Task.subtasks_withSubtasks]
      exact hgetT
    simp only [h7]
    have h8 : findParent
        (modifyAt (elemPath c (k - 1))
          (fun x => x.withSubtasks (removeTaskFromSlice x.subtasks
            prev.subtasks.length))
          (takeSnapshot (indentTask m)).tasks)
        (prev.withSubtasks (prev.subtasks ++ [t])).id = some (c, k - 1) := by
      show findParent
        (modifyAt (elemPath c (k - 1))
          (fun x => x.withSubtasks (removeTaskFromSlice x.subtasks
            prev.subtasks.length))
          (indentTask m).tasks)
        (prev.withSubtasks (prev.subtasks ++ [t])).id = some (c, k - 1)
      rw [hts1]
      exact hfp2
    simp only [h8]
  have hUt : (unindentTask (indentTask m)).tasks = containerModify
      (containerModify m.tasks c (fun _ => A' ++ prev :: B0)) c
      (fun l => insertTaskInSlice l (k - 1 + 1) t) := by
    rw [hU]
    show containerModify
      (modifyAt (elemPath c (k - 1))
        (fun x => x.withSubtasks (removeTaskFromSlice x.subtasks
          prev.subtasks.length))
        (indentTask m).tasks) c
      (fun l => insertTaskInSlice l (k - 1 + 1) t) = _
    rw [hts1]
  have hfinal : (unindentTask (indentTask m)).tasks = m.tasks := by
    rw [hUt, containerModify_containerModify]
    refine containerModify_id hc ?_
    show insertTaskInSlice (A' ++ prev :: B0) (k - 1 + 1) t = C
    have h10 : A' ++ prev :: B0 = (A' ++ [prev]) ++ B0 := by simp
    have h11 : k - 1 + 1 = (A' ++ [prev]).length := by
      simp only [List.length_append, List.length_cons, List.length_nil]
      omega
    rw [h10, h11, insertTaskInSlice_append, hCeq]
    simp
  have hcurU : (unindentTask (indentTask m)).cursorID = m.cursorID := by
    rw [hU]
    show (indentTask m).cursorID = m.cursorID
    exact hcurI
  exact ⟨hfinal, hcurU⟩

/-- Witness for C3 at a concrete two-task model. -/
theorem indent_unindent_inverse_witness :
    ((forestIdList demo3.tasks).Nodup ∧
      findParent demo3.tasks demo3.cursorID = some (none, 1) ∧
      (1 : Nat) ≠ 0) ∧
    ((unindentTask (indentTask demo3)).tasks = demo3.tasks ∧
      (unindentTask (indentTask demo3)).cursorID = demo3.cursorID) :=
  ⟨⟨by decide, rfl, by decide⟩,
    indent_unindent_inverse (by decide)
      (show findParent demo3.tasks demo3.cursorID = some (none, 1) from rfl)
      (by decide)⟩

/- ### Claim C2: undo/redo round trips -/

theorem currentSnapshot_recordedOp (f : ModelSnapshot → ModelSnapshot)
    (m : Model) : currentSnapshot (recordedOp f m) = f (currentSnapshot m) :=
  rfl

theorem recordedOp_undoStack (f : ModelSnapshot → ModelSnapshot) (m : Model) :
    (recordedOp f m).undoStack =
      pushCap m.maxHistorySize m.undoStack (currentSnapshot m) := rfl

theorem recordedOp_redoStack (f : ModelSnapshot → ModelSnapshot) (m : Model) :
    (recordedOp f m).redoStack = [] := rfl

theorem recordedOp_maxHistorySize (f : ModelSnapshot → ModelSnapshot)
    (m : Model) : (recordedOp f m).maxHistorySize = m.maxHistorySize := rfl

theorem applySeq_maxHistorySize (fs : List (ModelSnapshot → ModelSnapshot)) :
    ∀ m, (applySeq fs m).maxHistorySize = m.maxHistorySize := by
  induction fs with
  | nil => intro m; rfl
  | cons f fs ih => intro m; exact (ih (recordedOp f m)).trans rfl

theorem currentSnapshot_applySeq (fs : List (ModelSnapshot → ModelSnapshot)) :
    ∀ m, currentSnapshot (applySeq fs m) = snapEnd fs (currentSnapshot m) := by
  induction fs with
  | nil => intro m; rfl
  | cons f fs ih =>
    intro m
    show currentSnapshot (applySeq fs (recordedOp f m)) =
      snapEnd fs (f (currentSnapshot m))
    rw [ih (recordedOp f m), currentSnapshot_recordedOp]

theorem applySeq_redoStack :
    ∀ (fs : List (ModelSnapshot → ModelSnapshot)), fs ≠ [] →
    ∀ m, (applySeq fs m).redoStack = [] := by
  intro fs
  induction fs with
  | nil => intro h; exact absurd rfl h
  | cons f fs ih =>
    intro _ m
    show (applySeq fs (recordedOp f m)).redoStack = []
    rcases eq_or_ne fs [] with h | h
    · subst h; rfl
    · exact ih h (recordedOp f m)

theorem applySeq_undoStack (fs : List (ModelSnapshot → ModelSnapshot)) :
    ∀ m, (applySeq fs m).undoStack =
      pushCapFold m.maxHistorySize m.undoStack
        (snaps fs (currentSnapshot m)) := by
  induction fs with
  | nil => intro m; rfl
  | cons f fs ih =>
    intro m
    show (applySeq fs (recordedOp f m)).undoStack =
      pushCapFold m.maxHistorySize
        (pushCap m.maxHistorySize m.undoStack (currentSnapshot m))
        (snaps fs (f (currentSnapshot m)))
    rw [ih (recordedOp f m), currentSnapshot_recordedOp, recordedOp_undoStack,
      recordedOp_maxHistorySize]

theorem snaps_length (fs : List (ModelSnapshot → ModelSnapshot)) :
    ∀ s, (snaps fs s).length = fs.length := by
  induction fs with
  | nil => intro s; rfl
  | cons f fs ih =>
    intro s
    show (snaps fs (f s)).length + 1 = fs.length + 1
    rw [ih]

/-- Iterated capped pushes keep the pushed block intact and only evict from
the front of the prior stack, as long as the block fits under the cap. -/
theorem pushCapFold_spec (cap : Nat) :
    ∀ (ss : List ModelSnapshot) (u : List ModelSnapshot), ss.length ≤ cap →
    ∃ d, pushCapFold cap u ss = u.drop d ++ ss ∧
      (d + cap ≤ u.length + ss.length ∨ d = 0) := by
  intro ss
  induction ss with
  | nil =>
    intro u _
    exact ⟨0, by simp [pushCapFold], Or.inr rfl⟩
  | cons s ss ih =>
    intro u hlen
    have hlen2 : ss.length + 1 ≤ cap := by simpa using hlen
    by_cases hev : cap < (u ++ [s]).length
    · have hu : u ≠ [] := by
        intro h
        subst h
        simp at hev
        omega
      have hul : 1 ≤ u.length := List.length_pos.mpr hu
      have htl : (u ++ [s]).tail = u.tail ++ [s] := by
        cases u with
        | nil => exact absurd rfl hu
        | cons a u' => rfl
      obtain ⟨d₁, hres, hnum⟩ := ih (u.tail ++ [s]) (by omega)
      have htlen : u.tail.length = u.length - 1 := by
        cases u with
        | nil => exact absurd rfl hu
        | cons a u' => simp
      have hd₁ : d₁ ≤ u.tail.length := by
        rcases hnum with h | h
        · simp only [List.length_append, List.length_cons,
            List.length_nil] at h
          omega
        · omega
      have hpc : pushCap cap u s = u.tail ++ [s] := by
        unfold pushCap
        rw [if_pos hev, htl]
      have h2 : cap ≤ u.length := by
        simp only [List.length_append, List.length_cons,
          List.length_nil] at hev
        omega
      refine ⟨d₁ + 1, ?_, ?_⟩
      · show pushCapFold cap (pushCap cap u s) ss = u.drop (d₁ + 1) ++ s :: ss
        rw [hpc, hres, List.drop_append_of_le_length hd₁]
        have h3 : u.tail.drop d₁ = u.drop (d₁ + 1) := by
          rw [← List.drop_one, List.drop_drop, Nat.add_comm]
        rw [h3]
        simp
      · left
        rcases hnum with h | h
        · simp only [List.length_append, List.length_cons,
            List.length_nil] at h
          simp only [List.length_cons]
          omega
        · simp only [List.length_cons]
          omega
    · have hpc : pushCap cap u s = u ++ [s] := by
        unfold pushCap
        rw [if_neg hev]
      obtain ⟨d₁, hres, hnum⟩ := ih (u ++ [s]) (by omega)
      have hd₁ : d₁ ≤ u.length := by
        rcases hnum with h | h
        · simp only [List.length_append, List.length_cons,
            List.length_nil] at h
          omega
        · omega
      refine ⟨d₁, ?_, ?_⟩
      · show pushCapFold cap (pushCap cap u s) ss = u.drop d₁ ++ s :: ss
        rw [hpc, hres, List.drop_append_of_le_length hd₁]
        simp
      · rcases hnum with h | h
        · left
          simp only [List.length_append, List.length_cons,
            List.length_nil] at h
          simp only [List.length_cons]
          omega
        · right
          exact h

/-- Undoing once per entry of a suffix of the undo stack restores the
earliest entry of that suffix and records the walked-through states on the
redo stack. -/
theorem undo_pops :
    ∀ (ss : List ModelSnapshot) (X : Model) (w : List ModelSnapshot),
    X.undoStack = w ++ ss →
    X.redoStack.length + ss.length ≤ X.maxHistorySize →
    currentSnapshot (iterOp undo ss.length X) = ss.headD (currentSnapshot X) ∧
    (∀ s0 rest, ss = s0 :: rest →
      (iterOp undo ss.length X).redoStack =
        X.redoStack ++ currentSnapshot X :: rest.reverse) := by
  intro ss
  induction ss using List.reverseRecOn with
  | nil =>
    intro X w h1 h2
    exact ⟨rfl, fun s0 rest hss => absurd hss (by simp)⟩
  | append_singleton ss' sl ih =>
    intro X w h1 h2
    have h3 : X.redoStack.length + (ss'.length + 1) ≤ X.maxHistorySize := by
      simpa using h2
    have hlast : X.undoStack.getLast? = some sl := by
      rw [h1, ← List.append_assoc]
      exact List.getLast?_concat _
    have hcap : ¬ (X.maxHistorySize <
        (X.redoStack ++ [currentSnapshot X]).length) := by
      simp only [List.length_append, List.length_cons, List.length_nil]
      omega
    have hundo : undo X = { X with
        tasks := sl.tasks
        cursorID := sl.cursorID
        previousID := sl.previousID
        undoStack := X.undoStack.dropLast
        redoStack := X.redoStack ++ [currentSnapshot X] } := by
      unfold undo
      simp only [hlast]
      rw [if_neg hcap]
    have hdrop : X.undoStack.dropLast = w ++ ss' := by
      rw [h1, ← List.append_assoc, List.dropLast_concat]
    have h1' : (undo X).undoStack = w ++ ss' := by
      rw [hundo]
      exact hdrop
    have h2' : (undo X).redoStack.length + ss'.length ≤
        (undo X).maxHistorySize := by
      rw [hundo]
      show (X.redoStack ++ [currentSnapshot X]).length + ss'.length ≤
        X.maxHistorySize
      simp only [List.length_append, List.length_cons, List.length_nil]
      omega
    have hcs : currentSnapshot (undo X) = sl := by
      rw [hundo]
      rfl
    have hrst : (undo X).redoStack = X.redoStack ++ [currentSnapshot X] := by
      rw [hundo]
    obtain ⟨hv, hr⟩ := ih (undo X) w h1' h2'
    have hlen : (ss' ++ [sl]).length = ss'.length + 1 := by simp
    rw [hlen]
    constructor
    · show currentSnapshot (iterOp undo ss'.length (undo X)) =
        (ss' ++ [sl]).headD (currentSnapshot X)
      rw [hv, hcs]
      cases ss' with
      | nil => rfl
      | cons a t => rfl
    · intro s0 rest hss
      show (iterOp undo ss'.length (undo X)).redoStack =
        X.redoStack ++ currentSnapshot X :: rest.reverse
      cases ss' with
      | nil =>
        simp only [List.nil_append] at hss
        injection hss with h4 h5
        subst h4
        subst h5
        show (undo X).redoStack = X.redoStack ++ currentSnapshot X :: [].reverse
        rw [hrst]
        simp
      | cons a t =>
        simp only [List.cons_append] at hss
        injection hss with h4 h5
        subst h4
        subst h5
        have h6 := hr a t rfl
        rw [h6, hrst, hcs]
        simp

/-- Redoing once per entry of the redo stack restores its earliest entry. -/
theorem redo_pops : ∀ (R : List ModelSnapshot) (Z : Model), Z.redoStack = R →
    currentSnapshot (iterOp redo R.length Z) = R.headD (currentSnapshot Z) := by
  intro R
  induction R using List.reverseRecOn with
  | nil => intro Z h; rfl
  | append_singleton R' ρ ih =>
    intro Z h
    have hlast : Z.redoStack.getLast? = some ρ := by
      rw [h]
      exact List.getLast?_concat _
    have hredo : redo Z = { Z with
        tasks := ρ.tasks
        cursorID := ρ.cursorID
        previousID := ρ.previousID
        undoStack := if Z.maxHistorySize <
            (Z.undoStack ++ [currentSnapshot Z]).length then
            (Z.undoStack ++ [currentSnapshot Z]).tail
          else Z.undoStack ++ [currentSnapshot Z]
        redoStack := Z.redoStack.dropLast } := by
      unfold redo
      simp only [hlast]
    have hR' : (redo Z).redoStack = R' := by
      rw [hredo]
      show Z.redoStack.dropLast = R'
      rw [h, List.dropLast_concat]
    have hcs : currentSnapshot (redo Z) = ρ := by
      rw [hredo]
      rfl
    have hlen : (R' ++ [ρ]).length = R'.length + 1 := by simp
    rw [hlen]
    show currentSnapshot (iterOp redo R'.length (redo Z)) =
      (R' ++ [ρ]).headD (currentSnapshot Z)
    rw [ih (redo Z) hR', hcs]
    cases R' with
    | nil => rfl
    | cons a t => rfl

/-- Claim C2 (amended): for every starting state and every sequence of at
most `maxHistorySize` mutating operations each of which records one snapshot,
undoing once per operation restores the forest, cursor id and previous id
exactly, and redoing once per operation after that restores their
post-sequence values exactly.  (The original unbounded claim is refuted by
`DotDot.undo_redo_counterexample`: beyond the cap the oldest snapshots are
evicted.) -/
theorem undo_redo_roundtrip (m : Model)
    (fs : List (ModelSnapshot → ModelSnapshot))
    (hlen : fs.length ≤ m.maxHistorySize) :
    currentSnapshot (iterOp undo fs.length (applySeq fs m)) =
      currentSnapshot m ∧
    currentSnapshot (iterOp redo fs.length
        (iterOp undo fs.length (applySeq fs m))) =
      currentSnapshot (applySeq fs m) := by
  cases fs with
  | nil => exact ⟨rfl, rfl⟩
  | cons f fs' =>
    have hmax : (applySeq (f :: fs') m).maxHistorySize = m.maxHistorySize :=
      applySeq_maxHistorySize _ m
    have hred : (applySeq (f :: fs') m).redoStack = [] :=
      applySeq_redoStack _ (by simp) m
    have hund : (applySeq (f :: fs') m).undoStack =
        pushCapFold m.maxHistorySize m.undoStack
          (snaps (f :: fs') (currentSnapshot m)) := applySeq_undoStack _ m
    have hslen : (snaps (f :: fs') (currentSnapshot m)).length =
        (f :: fs').length := snaps_length _ _
    obtain ⟨d, hfold, -⟩ := pushCapFold_spec m.maxHistorySize
      (snaps (f :: fs') (currentSnapshot m)) m.undoStack
      (by rw [hslen]; exact hlen)
    have hstack : (applySeq (f :: fs') m).undoStack =
        m.undoStack.drop d ++ snaps (f :: fs') (currentSnapshot m) := by
      rw [hund, hfold]
    have hcap2 : (applySeq (f :: fs') m).redoStack.length +
        (snaps (f :: fs') (currentSnapshot m)).length ≤
        (applySeq (f :: fs') m).maxHistorySize := by
      rw [hred, hslen, hmax]
      simpa using hlen
    obtain ⟨hv, hr⟩ := undo_pops (snaps (f :: fs') (currentSnapshot m))
      (applySeq (f :: fs') m) (m.undoStack.drop d) hstack hcap2
    constructor
    · rw [← hslen, hv]
      rfl
    · have hr2 := hr (currentSnapshot m)
        (snaps fs' (f (currentSnapshot m))) rfl
      rw [hred] at hr2
      simp only [List.nil_append] at hr2
      have h8 := redo_pops _ _ hr2
      have h9 : (snaps (f :: fs') (currentSnapshot m)).length =
          (currentSnapshot (applySeq (f :: fs') m) ::
            (snaps fs' (f (currentSnapshot m))).reverse).length := by
        simp only [List.length_cons, List.length_reverse, snaps_length]
      rw [← h9] at h8
      rw [← hslen, h8]
      rfl

/-- Witness for C2 (amended) at a concrete model and one-operation
sequence. -/
theorem undo_redo_roundtrip_witness :
    demoFs2.length ≤ demo2.maxHistorySize ∧
    (currentSnapshot (iterOp undo demoFs2.length (applySeq demoFs2 demo2)) =
        currentSnapshot demo2 ∧
      currentSnapshot (iterOp redo demoFs2.length
          (iterOp undo demoFs2.length (applySeq demoFs2 demo2))) =
        currentSnapshot (applySeq demoFs2 demo2)) :=
  ⟨by decide, undo_redo_roundtrip demo2 demoFs2 (by decide)⟩

set_option maxRecDepth 10000 in
/-- Counterexample to C2 as frozen: with the default cap of 50, after a
sequence of 51 recorded mutating operations the 51 undos do not restore the
pre-sequence state — the oldest snapshot was evicted, so the cursor id stays
at its mutated value instead of returning to the original one. -/
theorem undo_redo_counterexample :
    (iterOp undo
        (List.replicate 51 (fun s : ModelSnapshot =>
          { s with cursorID := "x" })).length
        (applySeq
          (List.replicate 51 (fun s : ModelSnapshot =>
            { s with cursorID := "x" })) demo2)).cursorID ≠
      demo2.cursorID := by
  decide

/-- A real recording branch is an instance of `recordedOp`: when the cursor
resolves and the status will change, `changeTaskStatus` is the recorded
operation whose visible-state rewrite edits the forest in place. -/
theorem changeTaskStatus_eq_recordedOp {m : Model} {t : Task} (d : Int)
    (hcur : getCurrentTask m = some t)
    (hwc : if 0 < d then t.status = .Todo ∨ t.status = .Active
      else t.status = .Done ∨ t.status = .Active) :
    changeTaskStatus m d = recordedOp (fun s =>
      { s with tasks := (modifyTaskL m.cursorID (fun task =>
          if 0 < d then task.withStatus (statusForward task.status)
          else task.withStatus (statusBackward task.status))
          s.tasks).getD s.tasks }) m := by
  unfold changeTaskStatus
  simp only [hcur]
  rw [if_pos hwc]
  rfl

end DotDot








